import Mathlib

/-!
Shallow embedding of `docker_tree.py` (a docker image family-tree renderer)
and proofs about it.

Conventions used throughout:
* Python `str` values are Lean `String`s; Python string comparison is
  lexicographic on code points, modelled by `charListLe` below.
* Python `datetime.timedelta` values are exact microsecond counts (`Int`);
  the source's `timedelta` literals are written out as their microsecond
  values with the originating Python expression in a comment.
* Python `round(x)` on the exact rational value `a / b` (with `b > 0`) is
  modelled by `pyRound a b` (round half to even, as Python does).  The
  source computes these quotients in floating point; all quotients the
  program forms are modelled here as exact rationals `a / b`.
* Python's stable `sorted` is modelled by `List.insertionSort` (stable
  sorts with the same key agree pointwise, so this is exact).
-/

deriving instance DecidableEq for Except

/-- Lexicographic comparison of two code-point lists: the order Python uses
for `str <= str`. -/
def charListLe : List Char → List Char → Bool
  | [], _ => true
  | _ :: _, [] => false
  | a :: as, b :: bs =>
    if a < b then true
    else if b < a then false
    else charListLe as bs

/-- Python `s <= t` on strings. -/
def pyStrLe (s t : String) : Bool := charListLe s.data t.data

/-- Round half to even of the exact rational `a / b`, for `b > 0`: Python's
`round` applied to that quotient. -/
def pyRound (a b : Int) : Int :=
  let f := Int.ediv a b
  let r := Int.emod a b
  if 2 * r < b then f
  else if b < 2 * r then f + 1
  else if Int.emod f 2 = 0 then f else f + 1

/-- Zero-padded fixed-width decimal rendering of `n` (correct for
`n < 10 ^ w`): the digit list of Python's `%02d`/`strftime`-style padding. -/
def padNum : Nat → Nat → List Char
  | 0, _ => []
  | w + 1, n => Nat.digitChar (n / 10 ^ w) :: padNum w (n % 10 ^ w)

/-- Python `f'{n:02d}'` for the small non-negative `Int`s the program feeds it. -/
def pad2I (n : Int) : String :=
  if 0 ≤ n ∧ n < 10 then "0" ++ toString n else toString n

/-- Python f-string rendering of the float `n / 10` (one decimal digit),
for `n ≥ 0`. -/
def tenthsStr (n : Int) : String :=
  s!"{Int.ediv n 10}.{Int.emod n 10}"

/-- Python f-string rendering of the float `n / 5` (0.2-granularity),
for `n ≥ 0`. -/
def fifthsStr (n : Int) : String :=
  s!"{Int.ediv n 5}.{2 * Int.emod n 5}"

/-- `_to_k(i, exp, letter)` from the source.  `v = i / exp` is the exact
quotient; `i / exp < 10 ↔ i < 10 * exp` for positive `exp`, and
`round(i / (exp / 10)) = pyRound (10 * i) exp`, etc. -/
def toK (i e : Int) (letter : String) : Option String :=
  if i < 10 * e then some (tenthsStr (pyRound (10 * i) e) ++ letter)
  else if i < 20 * e then some (fifthsStr (pyRound (5 * i) e) ++ letter)
  else if i < 1024 * e then some (toString (pyRound i e) ++ letter)
  else none

/-- The unit loop of `pretty_size`: `e` is multiplied by 1024 before each
unit is tried; after the list is exhausted `e` holds `1024 ^ 5`. -/
def prettySizeLoop (i : Int) : Int → List String → String
  | e, [] => toString (pyRound i e) ++ "P"
  | e, letter :: rest =>
    match toK i (e * 1024) letter with
    | some r => r
    | none => prettySizeLoop i (e * 1024) rest

/-- `pretty_size(i)` from the source. -/
def prettySize (i : Int) : String :=
  if i < 100 then s!"{i}B"
  else prettySizeLoop i 1 ["K", "M", "G", "T", "P"]

/-- A naive `datetime.datetime` as the program stores it (the third
timestamp format parses a UTC offset, which the relationship and
rendering logic under verification never consults; the wall-clock fields
are kept). -/
structure PyDateTime where
  year : Nat
  month : Nat
  day : Nat
  hour : Nat
  minute : Nat
  second : Nat
  microsecond : Nat
deriving DecidableEq

/-- Days in a month of the proleptic Gregorian calendar. -/
def daysInMonth (y m : Nat) : Nat :=
  if m = 2 then (if y % 4 = 0 && (y % 100 != 0 || y % 400 = 0) then 29 else 28)
  else if m = 4 || m = 6 || m = 9 || m = 11 then 30
  else 31

/-- Days in the first `k` months of year `y`. -/
def monthDays (y : Nat) : Nat → Nat
  | 0 => 0
  | k + 1 => monthDays y k + daysInMonth y (k + 1)

/-- Day ordinal of a date (days since 0001-01-01 would be this minus one);
used only to give `datetime` subtraction its exact value. -/
def dateOrdinal (y m d : Nat) : Nat :=
  let yp := y - 1
  let daysBeforeYear := 365 * yp + yp / 4 - yp / 100 + yp / 400
  daysBeforeYear + monthDays y (m - 1) + d

/-- The instant of a naive `datetime` in microseconds (on the timeline
`datetime` subtraction uses). -/
def ctimeUs (c : PyDateTime) : Int :=
  ((((((dateOrdinal c.year c.month c.day) * 24 + c.hour) * 60 + c.minute) * 60
      + c.second) * 1000000 : Nat) : Int) + (c.microsecond : Int)

/-- `strftime("%Y.%m.%d %H:%M:%S")`: the absolute-timestamp rendering. -/
def fmtCtime (c : PyDateTime) : String :=
  String.mk (padNum 4 c.year) ++ "." ++ String.mk (padNum 2 c.month) ++ "."
    ++ String.mk (padNum 2 c.day) ++ " " ++ String.mk (padNum 2 c.hour) ++ ":"
    ++ String.mk (padNum 2 c.minute) ++ ":" ++ String.mk (padNum 2 c.second)

/-- `strftime("%Y%m%d%H%M%S%f")`: the sorting key for untagged images. -/
def strftimeKey (c : PyDateTime) : List Char :=
  padNum 4 c.year ++ padNum 2 c.month ++ padNum 2 c.day ++ padNum 2 c.hour
    ++ padNum 2 c.minute ++ padNum 2 c.second ++ padNum 6 c.microsecond

/-- Python `datetime <= datetime` (CPython compares the field tuples
lexicographically). -/
def dtLeB (a b : PyDateTime) : Bool :=
  if a.year ≠ b.year then a.year < b.year
  else if a.month ≠ b.month then a.month < b.month
  else if a.day ≠ b.day then a.day < b.day
  else if a.hour ≠ b.hour then a.hour < b.hour
  else if a.minute ≠ b.minute then a.minute < b.minute
  else if a.second ≠ b.second then a.second < b.second
  else a.microsecond ≤ b.microsecond

/-- `Image._time_show_delta_threshold = timedelta(hours=1, seconds=0.499999)`
in microseconds. -/
def timeShowDeltaThreshold : Int := 3600499999

/-- `Image._time_dont_show_threshold = timedelta(seconds=0.999999)`. -/
def timeDontShowThreshold : Int := 999999

/-- `Image._time_1_min = timedelta(seconds=60.499999)`. -/
def time1Min : Int := 60499999

/-- `Image._time_1_hour = timedelta(minutes=60, seconds=0.499999)`. -/
def time1Hour : Int := 3600499999

/-- The `'+{round(...)}s'` rendering of a small delta (`dUs` microseconds). -/
def secsForm (dUs : Int) : String :=
  s!"+{pyRound dUs 1000000}s"

/-- The `'+{m}:{s:02d}'` rendering (`divmod(round(total_seconds), 60)`). -/
def minsForm (dUs : Int) : String :=
  s!"+{Int.ediv (pyRound dUs 1000000) 60}:" ++ pad2I (Int.emod (pyRound dUs 1000000) 60)

/-- The `'+{timedelta(seconds=round(...))}'` rendering.  `str(timedelta)`
is modelled for the sub-day non-negative case; the branch that uses this
form is proved unreachable below. -/
def hoursForm (dUs : Int) : String :=
  s!"+{Int.ediv (pyRound dUs 1000000) 3600}:"
    ++ pad2I (Int.ediv (Int.emod (pyRound dUs 1000000) 3600) 60) ++ ":"
    ++ pad2I (Int.emod (pyRound dUs 1000000) 60)

/-- `Image.pretty_time`, with the object state passed explicitly:
`hasPar = self.has_parent`, `noTree = CLArgs.instance.no_tree`,
`dUs = self.time_delta` in microseconds (only consulted when
`hasPar && !noTree`), `c = self.ctime`. -/
def prettyTime (hasPar noTree : Bool) (dUs : Int) (c : PyDateTime) : String :=
  if !hasPar || noTree then fmtCtime c
  else if dUs < timeShowDeltaThreshold then
    if dUs < time1Min then secsForm dUs
    else if dUs < time1Hour then minsForm dUs
    else hoursForm dUs
  else fmtCtime c

/-- Numeric value of a decimal digit character. -/
def digToNat (c : Char) : Nat := c.toNat - 48

/-- Read exactly `n` leading digits (strptime `%Y` uses `n = 4`). -/
def readExactAux : Nat → Nat → List Char → Option (Nat × List Char)
  | 0, acc, l => some (acc, l)
  | _ + 1, _, [] => none
  | n + 1, acc, c :: l =>
    if c.isDigit then readExactAux n (acc * 10 + digToNat c) l else none

/-- Read one or two leading digits, greedily (strptime `%m`, `%d`, `%H`,
`%M`, `%S`; their value ranges are checked by `mkDT` below, with the same
accept/reject outcome as the format regexes). -/
def readUpTo2 : List Char → Option (Nat × List Char)
  | [] => none
  | [c] => if c.isDigit then some (digToNat c, []) else none
  | c1 :: c2 :: rest =>
    if c1.isDigit then
      if c2.isDigit then some (digToNat c1 * 10 + digToNat c2, rest)
      else some (digToNat c1, c2 :: rest)
    else none

/-- Require a literal character. -/
def litc (c : Char) : List Char → Option (List Char)
  | [] => none
  | d :: rest => if d = c then some rest else none

/-- Digit-list to number. -/
def natOfDigits (l : List Char) : Nat :=
  l.foldl (fun acc c => acc * 10 + digToNat c) 0

/-- strptime `%f`: one to six digits, greedy, right-padded to microseconds
(CPython does `int(value.ljust(6, '0'))`). -/
def readFrac (l : List Char) : Option (Nat × List Char) :=
  let digs := (l.takeWhile Char.isDigit).take 6
  if digs.isEmpty then none
  else some (natOfDigits digs * 10 ^ (6 - digs.length), l.drop digs.length)

/-- strptime `%z`, restricted to the shapes the program can feed it:
`Z` or `±HH:MM` / `±HHMM` (the optional seconds part of CPython's `%z`
grammar is not modelled).  Returns the offset in minutes, which the
program never consults. -/
def readTz : List Char → Option (Int × List Char)
  | 'Z' :: rest => some (0, rest)
  | c :: rest =>
    if c = '+' ∨ c = '-' then
      match rest with
      | h1 :: h2 :: ':' :: m1 :: m2 :: rest2 =>
        if h1.isDigit ∧ h2.isDigit ∧ m1.isDigit ∧ m2.isDigit then
          some (((if c = '-' then -1 else 1) : Int)
            * ((digToNat h1 * 10 + digToNat h2) * 60
                + (digToNat m1 * 10 + digToNat m2) : Nat), rest2)
        else none
      | h1 :: h2 :: m1 :: m2 :: rest2 =>
        if h1.isDigit ∧ h2.isDigit ∧ m1.isDigit ∧ m2.isDigit then
          some (((if c = '-' then -1 else 1) : Int)
            * ((digToNat h1 * 10 + digToNat h2) * 60
                + (digToNat m1 * 10 + digToNat m2) : Nat), rest2)
        else none
      | _ => none
    else none
  | [] => none

/-- `datetime(...)` construction: the validity checks CPython performs
(strptime's regex-level range checks reject exactly the same strings). -/
def mkDT (y mo d h mi s us : Nat) : Option PyDateTime :=
  if 1 ≤ y ∧ y ≤ 9999 ∧ 1 ≤ mo ∧ mo ≤ 12 ∧ 1 ≤ d ∧ d ≤ daysInMonth y mo
      ∧ h ≤ 23 ∧ mi ≤ 59 ∧ s ≤ 59 ∧ us ≤ 999999 then
    some ⟨y, mo, d, h, mi, s, us⟩
  else none

/-- The common `%Y-%m-%dT%H:%M:%S` core of all three formats. -/
def readDtCore (l : List Char) : Option ((Nat × Nat × Nat × Nat × Nat × Nat) × List Char) :=
  match readExactAux 4 0 l with
  | none => none
  | some (y, l1) =>
  match litc '-' l1 with
  | none => none
  | some l2 =>
  match readUpTo2 l2 with
  | none => none
  | some (mo, l3) =>
  match litc '-' l3 with
  | none => none
  | some l4 =>
  match readUpTo2 l4 with
  | none => none
  | some (d, l5) =>
  match litc 'T' l5 with
  | none => none
  | some l6 =>
  match readUpTo2 l6 with
  | none => none
  | some (h, l7) =>
  match litc ':' l7 with
  | none => none
  | some l8 =>
  match readUpTo2 l8 with
  | none => none
  | some (mi, l9) =>
  match litc ':' l9 with
  | none => none
  | some l10 =>
  match readUpTo2 l10 with
  | none => none
  | some (s, l11) => some ((y, mo, d, h, mi, s), l11)

/-- `strptime(s, '%Y-%m-%dT%H:%M:%S.%f')` (full-match). -/
def parseFmt1 (s : String) : Option PyDateTime :=
  match readDtCore s.data with
  | none => none
  | some ((y, mo, d, h, mi, sec), l) =>
  match litc '.' l with
  | none => none
  | some l1 =>
  match readFrac l1 with
  | none => none
  | some (us, l2) => if l2 = [] then mkDT y mo d h mi sec us else none

/-- `strptime(s, '%Y-%m-%dT%H:%M:%S')` (full-match). -/
def parseFmt2 (s : String) : Option PyDateTime :=
  match readDtCore s.data with
  | none => none
  | some ((y, mo, d, h, mi, sec), l) =>
    if l = [] then mkDT y mo d h mi sec 0 else none

/-- `strptime(s, '%Y-%m-%dT%H:%M:%S.%f%z')` (full-match; the offset is
validated to be under a day, then attached as `tzinfo`, which the program
never consults — the wall-clock fields are kept). -/
def parseFmt3 (s : String) : Option PyDateTime :=
  match readDtCore s.data with
  | none => none
  | some ((y, mo, d, h, mi, sec), l) =>
  match litc '.' l with
  | none => none
  | some l1 =>
  match readFrac l1 with
  | none => none
  | some (us, l2) =>
  match readTz l2 with
  | none => none
  | some (off, l3) =>
    if l3 = [] ∧ -1440 < off ∧ off < 1440 then mkDT y mo d h mi sec us else none

/-- Python `s[:-4]` (the first format's preprocessor). -/
def preDrop4 (s : String) : String := String.mk (s.data.take (s.data.length - 4))

/-- Python `s[:-1]` (the second format's preprocessor). -/
def preDrop1 (s : String) : String := String.mk (s.data.take (s.data.length - 1))

/-- Tail match for `re.sub(r'(\.\d{6})\d*([+\-]\d{2}):(\d{2})$', r'\1\2\3', s)`:
`l` is what follows a `'.'`; on a match, returns the replacement for
`'.' :: l`. -/
def tzTailMatch (l : List Char) : Option (List Char) :=
  let digs := l.takeWhile Char.isDigit
  let rest := l.drop digs.length
  if 6 ≤ digs.length then
    match rest with
    | [sg, h1, h2, co, m1, m2] =>
      if (sg = '+' ∨ sg = '-') ∧ h1.isDigit ∧ h2.isDigit ∧ co = ':'
          ∧ m1.isDigit ∧ m2.isDigit then
        some ('.' :: (digs.take 6 ++ [sg, h1, h2, m1, m2]))
      else none
    | _ => none
  else none

/-- Leftmost-match replacement for the regex above. -/
def subTzAux : List Char → Option (List Char)
  | [] => none
  | c :: rest =>
    if c = '.' then
      match tzTailMatch rest with
      | some repl => some repl
      | none => (subTzAux rest).map (fun l => c :: l)
    else (subTzAux rest).map (fun l => c :: l)

/-- The third format's preprocessor (`re.sub` leaves the string unchanged
when the pattern does not match). -/
def preSubTz (s : String) : String :=
  match subTzAux s.data with
  | some l => String.mk l
  | none => s

/-- `Image._parse_dt`: the three `(format, preprocessor)` pairs are tried
in source order; when none matches the source executes a bare
`raise Exception` — an error value carrying the empty message. -/
def parseDt (s : String) : Except String PyDateTime :=
  match parseFmt1 (preDrop4 s) with
  | some d => Except.ok d
  | none =>
  match parseFmt2 (preDrop1 s) with
  | some d => Except.ok d
  | none =>
  match parseFmt3 (preSubTz s) with
  | some d => Except.ok d
  | none => Except.error ""

/-- `Image.remove_sha256`: Python `s[7:]`. -/
def removeSha256 (s : String) : String := String.mk (s.data.drop 7)

/-- The fields of one `docker inspect` metadata record that
`Image.__init__` reads.  `parentStr = none` models a missing `'Parent'`
key; `repoTags = none` a missing or `null` `'RepoTags'` entry
(`Image._has_key` treats missing, `None`, `''` and `[]` alike). -/
structure Metadata where
  idStr : String
  parentStr : Option String
  repoTags : Option (List String)
  size : Int
  created : String
deriving DecidableEq

/-- The state an `Image` carries after `__init__` and before
`find_immediate_family` (the relationship fields are recomputed from the
owning forest below, which is equivalent because they are pure functions
of these fields). -/
structure Image0 where
  id : String
  parentId : Option String
  repoTags : List String
  size : Int
  ctime : PyDateTime
deriving DecidableEq

/-- `self._has_key('RepoTags')` after construction. -/
def hasTagsB (img : Image0) : Bool := !img.repoTags.isEmpty

/-- `Image.__init__` on a metadata record (the `metadata=` constructor
path).  `int(self.id, base=16)` requires a non-empty hexadecimal id. -/
def mkImage0 (m : Metadata) : Except String Image0 :=
  match parseDt m.created with
  | Except.error e => Except.error e
  | Except.ok ct =>
    if (removeSha256 m.idStr).data ≠ []
        ∧ (removeSha256 m.idStr).data.all
            (fun c => c.isDigit ∨ ('a' ≤ c ∧ c ≤ 'f') ∨ ('A' ≤ c ∧ c ≤ 'F')) then
      Except.ok
        { id := removeSha256 m.idStr
          parentId :=
            match m.parentStr with
            | some p => if p ≠ "" then some (removeSha256 p) else none
            | none => none
          repoTags := m.repoTags.getD []
          size := m.size
          ctime := ct }
    else Except.error "invalid literal for int() with base 16"

/-- The key `Image._sort_tags` sorts one image's tags by:
`'A' + t` when the tag's last seven characters are `":latest"`, else
`'B' + t` (Python `t[-7:]`). -/
def tagKey (t : String) : String :=
  (if String.mk (t.data.drop (t.data.length - 7)) = ":latest" then "A" else "B") ++ t

/-- The tag order used by `Image._sort_tags`. -/
def tagLe (t u : String) : Prop := pyStrLe (tagKey t) (tagKey u) = true

instance : DecidableRel tagLe := fun _ _ => instDecidableEqBool _ _

/-- `Image._sort_tags` (Python's stable `sorted` by `tagKey`). -/
def sortTags (tags : List String) : List String := List.insertionSort tagLe tags

/-- `','.join(l)`. -/
def joinComma : List String → String
  | [] => ""
  | [x] => x
  | x :: y :: rest => x ++ "," ++ joinComma (y :: rest)

/-- `self._sorting_str` as computed in `Image.__init__`. -/
def sortingStr (img : Image0) : String :=
  if hasTagsB img then "A" ++ joinComma (sortTags img.repoTags)
  else "B" ++ String.mk (strftimeKey img.ctime)

/-- The image order used by `Image.sorted`. -/
def imgLe (a b : Image0) : Prop := pyStrLe (sortingStr a) (sortingStr b) = true

instance : DecidableRel imgLe := fun _ _ => instDecidableEqBool _ _

/-- `Image.sorted` (Python's stable `sorted` by `_sorting_str`). -/
def imageSorted (l : List Image0) : List Image0 := List.insertionSort imgLe l

/-- The id list of a forest (the keys of `Images._id2img`). -/
def idsOf (f : List Image0) : List String := f.map (fun i => i.id)

/-- Python dict lookup `self._id2img[p]` on a forest with the given
insertion order (duplicate-free after `toDict`). -/
def lookupId (f : List Image0) (p : String) : Option Image0 :=
  f.find? (fun i => i.id == p)

/-- One step of building `{i.id: i for i in a_image_iterable}`: a repeated
key keeps its position and takes the new value. -/
def dictInsert (m : List Image0) (img : Image0) : List Image0 :=
  if m.any (fun j => j.id == img.id) then
    m.map (fun j => if j.id == img.id then img else j)
  else m ++ [img]

/-- The dict comprehension in `Images.__init__`. -/
def toDict (l : List Image0) : List Image0 := l.foldl dictInsert []

/-- Whether `find_immediate_family` would raise `KeyError` for this image:
it has a parent id that the forest's index does not resolve. -/
def parentMissing (f : List Image0) (img : Image0) : Bool :=
  match img.parentId with
  | none => false
  | some p => (lookupId f p).isNone

/-- The error raised out of `Images.__init__` when a parent reference
dangles: Python's `KeyError(parent_id)`. -/
inductive BuildErr where
  | keyError (k : String)
deriving DecidableEq

/-- `Images.__init__` on a list of constructed images: index by id
(later duplicates overwrite earlier ones), then run
`find_immediate_family` for every image in index order; the first
unresolvable `parent_id` raises `KeyError`.  On success the forest is the
index itself; every relationship field is a pure function of it, defined
below. -/
def buildImages (l : List Image0) : Except BuildErr (List Image0) :=
  match (toDict l).find? (parentMissing (toDict l)) with
  | some img => Except.error (BuildErr.keyError (img.parentId.getD ""))
  | none => Except.ok (toDict l)

/-- `self.children` as set by `find_immediate_family`: the images of the
forest whose `parent_id` equals this image's id, in `Image.sorted` order. -/
def childrenOf (f : List Image0) (img : Image0) : List Image0 :=
  imageSorted (f.filter (fun i => i.parentId == some img.id))

/-- `self.parent` as set by `find_immediate_family`. -/
def parentOf (f : List Image0) (img : Image0) : Option Image0 :=
  match img.parentId with
  | none => none
  | some p => lookupId f p

/-- `self.time_delta` in microseconds (`0` when there is no parent; the
program only consults it when `has_parent`). -/
def timeDeltaUs (f : List Image0) (img : Image0) : Int :=
  match parentOf f img with
  | some p => ctimeUs img.ctime - ctimeUs p.ctime
  | none => 0

/-- `self.size_delta` (`0` when there is no parent; the program only
consults it when `has_parent`). -/
def sizeDeltaI (f : List Image0) (img : Image0) : Int :=
  match parentOf f img with
  | some p => img.size - p.size
  | none => 0

/-- `Images.orphans`: the roots, sorted. -/
def orphansOf (f : List Image0) : List Image0 :=
  imageSorted (f.filter (fun i => i.parentId.isNone))

/-- `Images.spinsters`: the leaves, sorted. -/
def spinstersOf (f : List Image0) : List Image0 :=
  imageSorted (f.filter (fun i => (childrenOf f i).isEmpty))

/-- The parent chain of an image, nearest first (`fuel` bounds the number
of `parent` steps; `Image.ancestors` walks exactly this chain). -/
def chainUp (f : List Image0) : Nat → Image0 → Option (List Image0)
  | 0, img =>
    match parentOf f img with
    | none => some []
    | some _ => none
  | fuel + 1, img =>
    match parentOf f img with
    | none => some []
    | some p => (chainUp f fuel p).map (fun l => p :: l)

/-- `Image.ancestors` (the generator builds a stack of parents and yields
it reversed, true root first).  For the acyclic forests the program
builds, `f.length` steps always suffice; on a parent cycle the Python
generator would not terminate, and this model returns `[]`. -/
def ancestorsL (f : List Image0) (img : Image0) : List Image0 :=
  ((chainUp f f.length img).getD []).reverse

/-- `Image.descendants` to a bounded child depth: each child, followed by
its own descendants (pre-order). -/
def descendantsAux (f : List Image0) : Nat → Image0 → List Image0
  | 0, _ => []
  | fuel + 1, img =>
    (childrenOf f img).flatMap (fun c => c :: descendantsAux f fuel c)

/-- `Image.descendants`.  For the acyclic forests the program builds,
depth `f.length` always suffices. -/
def descendantsL (f : List Image0) (img : Image0) : List Image0 :=
  descendantsAux f f.length img

/-- Every parent reference of the forest resolves in its index. -/
def resolvesB (f : List Image0) : Bool := f.all (fun i => !parentMissing f i)

/-- Every parent chain reaches a root within `f.length` steps (no parent
cycles). -/
def acyclicB (f : List Image0) : Bool :=
  f.all (fun i => (chainUp f f.length i).isSome)

/-- Deduplication by id keeping the first occurrence: the effect of the
Python `set(...)` in `cook_subimages` on nodes that are `__eq__` by id
(the set's iteration order is unspecified in Python; all statements below
about the result are order-insensitive). -/
def dedupByIdAux (seen : List String) : List Image0 → List Image0
  | [] => []
  | x :: rest =>
    if x.id ∈ seen then dedupByIdAux seen rest
    else x :: dedupByIdAux (x.id :: seen) rest

/-- See `dedupByIdAux`. -/
def dedupById (l : List Image0) : List Image0 := dedupByIdAux [] l

/-- `Images.cook_subimages`: for each target id, the node itself, its
ancestors and its descendants; the union is deduplicated by id, each node
is cloned (`Image.clone` re-parses the same metadata, reproducing the
same `Image0` fields), and a fresh `Images` is built from the clones.
A target id missing from the index raises `KeyError`. -/
def cookSubimages (f : List Image0) (targets : List String) : Except BuildErr (List Image0) :=
  match targets.find? (fun t => (lookupId f t).isNone) with
  | some t => Except.error (BuildErr.keyError t)
  | none =>
    buildImages (dedupById ((targets.filterMap (lookupId f)).flatMap
      (fun i => i :: (ancestorsL f i ++ descendantsL f i))))

/-- `', '.join(l)`. -/
def joinCommaSpace : List String → String
  | [] => ""
  | [x] => x
  | x :: y :: rest => x ++ ", " ++ joinCommaSpace (y :: rest)

/-- `Image.__repr__`, with the CLI flags passed explicitly
(`noTrunc = CLArgs.instance.no_trunc`, `noTree = CLArgs.instance.no_tree`). -/
def reprImg (f : List Image0) (noTrunc noTree : Bool) (img : Image0) : String :=
  let idStr :=
    if hasTagsB img then joinComma (sortTags img.repoTags)
    else if noTrunc then img.id
    else String.mk (img.id.data.take 12)
  let hasPar := img.parentId.isSome
  let acc : List String :=
    (if !hasPar || decide (timeDontShowThreshold < timeDeltaUs f img) || noTree then
      [prettyTime hasPar noTree (timeDeltaUs f img) img.ctime]
    else []) ++
    (if !hasPar || noTree then [prettySize img.size]
    else if sizeDeltaI f img ≠ 0 then ["+" ++ prettySize (sizeDeltaI f img)]
    else [])
  if acc.isEmpty then idStr else idStr ++ ": " ++ joinCommaSpace acc

/-- The loop body of `Image.sprint_children`: renders each child with the
middle connector, the last with the closing connector (`render` is the
recursive call at one less fuel). -/
def sprintKidsAux (render : Image0 → String → String → String)
    (dotted : List String) : List Image0 → String → String
  | [], _ => ""
  | [c], pfx =>
    "\n" ++ pfx
      ++ render c (pfx ++ "    ") (if dotted.contains c.id then "└─• " else "└───")
  | c :: c2 :: rest, pfx =>
    "\n" ++ pfx
      ++ render c (pfx ++ "│   ") (if dotted.contains c.id then "├─• " else "├───")
      ++ sprintKidsAux render dotted (c2 :: rest) pfx

/-- `Image.sprint_children(a_prefix, a_branch, a_dotted)`.  `fuel` bounds
the recursion depth; `f.length` always suffices for the acyclic forests
the program builds. -/
def sprintChildren (f : List Image0) (noTrunc noTree : Bool) (dotted : List String) :
    Nat → Image0 → String → String → String
  | 0, img, _, branch => branch ++ reprImg f noTrunc noTree img
  | fuel + 1, img, pfx, branch =>
    branch ++ reprImg f noTrunc noTree img
      ++ sprintKidsAux (fun c p b => sprintChildren f noTrunc noTree dotted fuel c p b)
          dotted (childrenOf f img) pfx

/-- `Image.sprint_tree` (the single-target view): the ancestor lines from
the true root down to the parent, then the target anchored by `'└─• '`
and its subtree; a root starts directly with the `'• '` bullet. -/
def sprintTree (f : List Image0) (noTrunc noTree : Bool) (img : Image0) : String :=
  if img.parentId.isSome then
    match ancestorsL f img with
    | [] => ""
    | a :: rest =>
      "┌─" ++ reprImg f noTrunc noTree a
        ++ String.join (rest.map (fun p => "\n├─" ++ reprImg f noTrunc noTree p))
        ++ "\n└─• " ++ sprintChildren f noTrunc noTree [] f.length img "    " ""
  else "• " ++ sprintChildren f noTrunc noTree [] f.length img "  " ""


/-- Modelled from the spec wording of `FormatSize` (§4.3). -/
def specPrettySize (i : Int) : String :=
  if i < 100 then s!"{i}B"
  else if i < 10 * 1024 then tenthsStr (pyRound (10 * i) 1024) ++ "K"
  else if i < 20 * 1024 then fifthsStr (pyRound (5 * i) 1024) ++ "K"
  else if i < 1024 * 1024 then toString (pyRound i 1024) ++ "K"
  else if i < 10 * 1048576 then tenthsStr (pyRound (10 * i) 1048576) ++ "M"
  else if i < 20 * 1048576 then fifthsStr (pyRound (5 * i) 1048576) ++ "M"
  else if i < 1024 * 1048576 then toString (pyRound i 1048576) ++ "M"
  else if i < 10 * 1073741824 then tenthsStr (pyRound (10 * i) 1073741824) ++ "G"
  else if i < 20 * 1073741824 then fifthsStr (pyRound (5 * i) 1073741824) ++ "G"
  else if i < 1024 * 1073741824 then toString (pyRound i 1073741824) ++ "G"
  else if i < 10 * 1099511627776 then tenthsStr (pyRound (10 * i) 1099511627776) ++ "T"
  else if i < 20 * 1099511627776 then fifthsStr (pyRound (5 * i) 1099511627776) ++ "T"
  else if i < 1024 * 1099511627776 then toString (pyRound i 1099511627776) ++ "T"
  else if i < 10 * 1125899906842624 then tenthsStr (pyRound (10 * i) 1125899906842624) ++ "P"
  else if i < 20 * 1125899906842624 then fifthsStr (pyRound (5 * i) 1125899906842624) ++ "P"
  else if i < 1024 * 1125899906842624 then toString (pyRound i 1125899906842624) ++ "P"
  else toString (pyRound i 1125899906842624) ++ "P"

def rankOf (f : List Image0) (img : Image0) : Nat :=
  ((chainUp f f.length img).getD []).length

def childStep (f : List Image0) (a b : Image0) : Prop :=
  b ∈ f ∧ b.parentId = some a.id

/-- The numeral the fixed-width key `YYYYMMDDHHMMSSffffff` spells out. -/
def dtKeyNat (c : PyDateTime) : Nat :=
  (((((c.year * 100 + c.month) * 100 + c.day) * 100 + c.hour) * 100 + c.minute) * 100
      + c.second) * 1000000 + c.microsecond

/-- Field ranges under which the fixed-width key is faithful (every
`datetime` the program constructs satisfies much tighter bounds). -/
def validDT (c : PyDateTime) : Prop :=
  c.year < 10 ^ 4 ∧ c.month < 10 ^ 2 ∧ c.day < 10 ^ 2 ∧ c.hour < 10 ^ 2 ∧
  c.minute < 10 ^ 2 ∧ c.second < 10 ^ 2 ∧ c.microsecond < 10 ^ 6

instance : DecidablePred validDT := fun c => by unfold validDT; infer_instance

/-- Whether `Image._sort_tags` puts the tag in the leading class: its last
seven characters are `":latest"`. -/
def isLatestB (t : String) : Bool :=
  decide (String.mk (t.data.drop (t.data.length - 7)) = ":latest")

/-- Modelled from the spec: the tag ordering in which a tag EQUAL to the
distinguished `":latest"` marker sorts before all other tags, with
lexicographic secondary order (§4.2 as written). -/
def specTagLe (t u : String) : Prop :=
  pyStrLe ((if t = ":latest" then "A" else "B") ++ t)
    ((if u = ":latest" then "A" else "B") ++ u) = true

instance : DecidableRel specTagLe := fun _ _ => instDecidableEqBool _ _

/-- Modelled from the spec: `_sort_tags` as the spec's words describe it. -/
def specSortTags (tags : List String) : List String := List.insertionSort specTagLe tags

/-- A concrete timestamp used by the witness forests below. -/
def dt0 : PyDateTime := ⟨2020, 1, 1, 0, 0, 0, 0⟩

/-- A tagged root image (witness data). -/
def imgA : Image0 := ⟨"aaaa1111", none, ["repo:latest"], 1000, dt0⟩

/-- An untagged child of `imgA` (witness data). -/
def imgB : Image0 := ⟨"bbbb2222", some "aaaa1111", [], 1500, dt0⟩

/-- A two-image forest (witness data). -/
def forestAB : List Image0 := [imgA, imgB]

/-- A record with a dangling parent reference, shadowed by `imgDupB`. -/
def imgDupA : Image0 := ⟨"aa", some "zz", [], 0, dt0⟩

/-- A record with the same id as `imgDupA` and no parent. -/
def imgDupB : Image0 := ⟨"aa", none, [], 0, dt0⟩

/-- A concrete metadata record (witness data). -/
def mdEx : Metadata :=
  ⟨"sha256:abc123", some "sha256:def456", some ["t:latest"], 5, "2021-03-04T05:06:07Z"⟩

/-- The image `mkImage0 mdEx` constructs (witness data). -/
def imgEx : Image0 := ⟨"abc123", some "def456", ["t:latest"], 5, ⟨2021, 3, 4, 5, 6, 7, 0⟩⟩

theorem prettySizeLoop_cons (i e : Int) (letter : String) (rest : List String) :
    prettySizeLoop i e (letter :: rest) =
      if i < 10 * (e * 1024) then tenthsStr (pyRound (10 * i) (e * 1024)) ++ letter
      else if i < 20 * (e * 1024) then fifthsStr (pyRound (5 * i) (e * 1024)) ++ letter
      else if i < 1024 * (e * 1024) then toString (pyRound i (e * 1024)) ++ letter
      else prettySizeLoop i (e * 1024) rest := by
  simp only [prettySizeLoop, toK]
  split_ifs <;> rfl

-- helper lemmas for the forest
theorem idsOf_append (a b : List Image0) : idsOf (a ++ b) = idsOf a ++ idsOf b := by
  simp [idsOf]

theorem mem_idsOf {f : List Image0} {p : String} :
    p ∈ idsOf f ↔ ∃ q ∈ f, q.id = p := by
  simp [idsOf, List.mem_map]

theorem lookupId_eq_none {f : List Image0} {p : String} :
    lookupId f p = none ↔ p ∉ idsOf f := by
  rw [lookupId, List.find?_eq_none]
  constructor
  · intro h hmem
    obtain ⟨q, hq, rfl⟩ := mem_idsOf.mp hmem
    exact h q hq (by simp)
  · intro h q hq hbeq
    exact h (mem_idsOf.mpr ⟨q, hq, by simpa using hbeq⟩)

theorem lookupId_mem {f : List Image0} {p : String} {q : Image0}
    (h : lookupId f p = some q) : q ∈ f ∧ q.id = p := by
  refine ⟨List.mem_of_find?_eq_some h, ?_⟩
  have := List.find?_some h
  simpa using this

theorem foldl_dictInsert (l : List Image0) :
    ∀ acc : List Image0, (idsOf (acc ++ l)).Nodup → l.foldl dictInsert acc = acc ++ l := by
  induction l with
  | nil => intro acc h; simp
  | cons x rest ih =>
    intro acc h
    have hnd := h
    rw [idsOf_append] at hnd
    have hdisj : x.id ∉ idsOf acc := by
      rw [List.nodup_append] at hnd
      intro hmem
      exact hnd.2.2 hmem (by simp [idsOf])
    have hx : acc.any (fun j => j.id == x.id) = false := by
      rw [← Bool.not_eq_true, List.any_eq_true]
      rintro ⟨j, hj, hbeq⟩
      exact hdisj (mem_idsOf.mpr ⟨j, hj, by simpa using hbeq⟩)
    simp only [List.foldl_cons, dictInsert, hx]
    rw [if_neg (by simp)]
    have := ih (acc ++ [x]) (by simpa using h)
    rw [this]
    simp

theorem toDict_eq_self {l : List Image0} (h : (idsOf l).Nodup) : toDict l = l := by
  have := foldl_dictInsert l [] (by simpa using h)
  simpa [toDict] using this

theorem buildImages_ok {l : List Image0} (hN : (idsOf l).Nodup)
    (hR : ∀ img ∈ l, ∀ p, img.parentId = some p → p ∈ idsOf l) :
    buildImages l = Except.ok l := by
  unfold buildImages
  rw [toDict_eq_self hN]
  have hnone : l.find? (parentMissing l) = none := by
    rw [List.find?_eq_none]
    intro img hmem
    simp only [parentMissing]
    cases hpid : img.parentId with
    | none => simp
    | some p =>
      have hp := hR img hmem p hpid
      rcases hlook : lookupId l p with _ | q
      · exact absurd (lookupId_eq_none.mp hlook) (by simpa using hp)
      · simp [hlook]
  rw [hnone]

theorem mem_childrenOf {f : List Image0} {img c : Image0} :
    c ∈ childrenOf f img ↔ c ∈ f ∧ c.parentId = some img.id := by
  rw [childrenOf, imageSorted, (List.perm_insertionSort imgLe _).mem_iff, List.mem_filter]
  simp

theorem lookupId_self {f : List Image0} (hN : (idsOf f).Nodup) {img : Image0}
    (hm : img ∈ f) : lookupId f img.id = some img := by
  induction f with
  | nil => cases hm
  | cons x rest ih =>
    have hN' : x.id ∉ idsOf rest ∧ (idsOf rest).Nodup := by
      have : (x.id :: idsOf rest).Nodup := by simpa [idsOf] using hN
      exact List.nodup_cons.mp this
    rcases List.mem_cons.mp hm with rfl | hmem
    · simp [lookupId]
    · have hx : x.id ≠ img.id := by
        intro he
        exact hN'.1 (he ▸ mem_idsOf.mpr ⟨img, hmem, rfl⟩)
      have hbeq : (x.id == img.id) = false := by simpa using hx
      simp only [lookupId, List.find?_cons, hbeq]
      exact ih hN'.2 hmem

theorem id_inj {f : List Image0} (hN : (idsOf f).Nodup) {a b : Image0}
    (ha : a ∈ f) (hb : b ∈ f) (he : a.id = b.id) : a = b := by
  have h1 := lookupId_self hN ha
  have h2 := lookupId_self hN hb
  rw [he, h2] at h1
  exact (Option.some.injEq _ _ ▸ h1).symm ▸ rfl

theorem resolvesB_iff {l : List Image0} :
    resolvesB l = true ↔ ∀ img ∈ l, ∀ p, img.parentId = some p → p ∈ idsOf l := by
  rw [resolvesB, List.all_eq_true]
  constructor
  · intro h img hm p hp
    have hh := h img hm
    simp only [Bool.not_eq_true', parentMissing, hp] at hh
    rcases hl : lookupId l p with _ | q
    · rw [hl] at hh; simp at hh
    · exact mem_idsOf.mpr ⟨q, (lookupId_mem hl).1, (lookupId_mem hl).2⟩
  · intro h img hm
    simp only [Bool.not_eq_true', parentMissing]
    cases hp : img.parentId with
    | none => rfl
    | some p =>
      have hpi := h img hm p hp
      rcases hl : lookupId l p with _ | q
      · exact absurd (lookupId_eq_none.mp hl) (by simpa using hpi)
      · simp [hl]

theorem parentOf_mem {f : List Image0} {img p : Image0}
    (h : parentOf f img = some p) : p ∈ f := by
  rw [parentOf] at h
  cases hp : img.parentId with
  | none => rw [hp] at h; cases h
  | some q => rw [hp] at h; exact (lookupId_mem h).1

theorem chainUp_zero_eq (f : List Image0) (img : Image0) :
    chainUp f 0 img =
      match parentOf f img with
      | none => some []
      | some _ => none := rfl

theorem chainUp_succ_eq (f : List Image0) (n : Nat) (img : Image0) :
    chainUp f (n + 1) img =
      match parentOf f img with
      | none => some []
      | some p => (chainUp f n p).map (fun l => p :: l) := rfl

theorem chainUp_succ {f : List Image0} :
    ∀ {n : Nat} {img : Image0} {l : List Image0},
      chainUp f n img = some l → chainUp f (n + 1) img = some l := by
  intro n
  induction n with
  | zero =>
    intro img l h
    rw [chainUp_zero_eq] at h
    cases hp : parentOf f img with
    | none =>
      rw [hp] at h
      rw [chainUp_succ_eq, hp]
      exact h
    | some p => rw [hp] at h; cases h
  | succ n ih =>
    intro img l h
    rw [chainUp_succ_eq] at h
    cases hp : parentOf f img with
    | none =>
      rw [hp] at h
      rw [chainUp_succ_eq, hp]
      exact h
    | some p =>
      rw [hp] at h
      obtain ⟨l', hl', rfl⟩ := Option.map_eq_some'.mp h
      have hstep : chainUp f (n + 1 + 1) img
          = Option.map (fun c => p :: c) (chainUp f (n + 1) p) := by
        rw [chainUp_succ_eq, hp]
      rw [hstep, ih hl']
      rfl

theorem chainUp_mono {f : List Image0} {n m : Nat} (hle : n ≤ m) {img : Image0}
    {l : List Image0} (h : chainUp f n img = some l) : chainUp f m img = some l := by
  induction m with
  | zero => cases Nat.le_zero.mp hle; exact h
  | succ m ih =>
    rcases Nat.lt_or_ge n (m + 1) with hlt | hge
    · exact chainUp_succ (ih (Nat.lt_succ_iff.mp hlt))
    · have : n = m + 1 := Nat.le_antisymm hle hge
      exact this ▸ h

theorem chainUp_unique {f : List Image0} {n m : Nat} {img : Image0}
    {l1 l2 : List Image0} (h1 : chainUp f n img = some l1)
    (h2 : chainUp f m img = some l2) : l1 = l2 := by
  rcases Nat.le_total n m with h | h
  · have := chainUp_mono h h1
    rw [this] at h2
    exact Option.some.inj h2
  · have := chainUp_mono h h2
    rw [this] at h1
    exact (Option.some.inj h1).symm

theorem chainUp_length_le {f : List Image0} :
    ∀ {n : Nat} {img : Image0} {l : List Image0},
      chainUp f n img = some l → l.length ≤ n := by
  intro n
  induction n with
  | zero =>
    intro img l h
    rw [chainUp_zero_eq] at h
    cases hp : parentOf f img with
    | none => rw [hp] at h; cases h; simp
    | some p => rw [hp] at h; cases h
  | succ n ih =>
    intro img l h
    rw [chainUp_succ_eq] at h
    cases hp : parentOf f img with
    | none => rw [hp] at h; cases h; simp
    | some p =>
      rw [hp] at h
      obtain ⟨l', hl', rfl⟩ := Option.map_eq_some'.mp h
      simpa using ih hl'

theorem chainUp_min {f : List Image0} :
    ∀ {n : Nat} {img : Image0} {l : List Image0},
      chainUp f n img = some l → chainUp f l.length img = some l := by
  intro n
  induction n with
  | zero =>
    intro img l h
    rw [chainUp_zero_eq] at h
    cases hp : parentOf f img with
    | none =>
      rw [hp] at h; cases h
      show chainUp f 0 img = some []
      rw [chainUp_zero_eq, hp]
    | some p => rw [hp] at h; cases h
  | succ n ih =>
    intro img l h
    rw [chainUp_succ_eq] at h
    cases hp : parentOf f img with
    | none =>
      rw [hp] at h; cases h
      show chainUp f 0 img = some []
      rw [chainUp_zero_eq, hp]
    | some p =>
      rw [hp] at h
      obtain ⟨l', hl', rfl⟩ := Option.map_eq_some'.mp h
      show chainUp f (l'.length + 1) img = some (p :: l')
      have hstep : chainUp f (l'.length + 1) img
          = Option.map (fun c => p :: c) (chainUp f l'.length p) := by
        rw [chainUp_succ_eq, hp]
      rw [hstep, ih hl']
      rfl

theorem chainUp_mem {f : List Image0} :
    ∀ {n : Nat} {img : Image0} {l : List Image0},
      chainUp f n img = some l → ∀ a ∈ l, a ∈ f := by
  intro n
  induction n with
  | zero =>
    intro img l h a ha
    rw [chainUp_zero_eq] at h
    cases hp : parentOf f img with
    | none => rw [hp] at h; cases h; cases ha
    | some p => rw [hp] at h; cases h
  | succ n ih =>
    intro img l h a ha
    rw [chainUp_succ_eq] at h
    cases hp : parentOf f img with
    | none => rw [hp] at h; cases h; cases ha
    | some p =>
      rw [hp] at h
      obtain ⟨l', hl', rfl⟩ := Option.map_eq_some'.mp h
      rcases List.mem_cons.mp ha with rfl | ha'
      · exact parentOf_mem hp
      · exact ih hl' a ha'

theorem chainUp_chain {f : List Image0} :
    ∀ {n : Nat} {img : Image0} {l : List Image0},
      chainUp f n img = some l →
        List.Chain' (fun a b => parentOf f a = some b) (img :: l) ∧
        ∀ z, (img :: l).getLast? = some z → parentOf f z = none := by
  intro n
  induction n with
  | zero =>
    intro img l h
    rw [chainUp_zero_eq] at h
    cases hp : parentOf f img with
    | none =>
      rw [hp] at h; cases h
      exact ⟨List.chain'_singleton _, by intro z hz; simp at hz; exact hz ▸ hp⟩
    | some p => rw [hp] at h; cases h
  | succ n ih =>
    intro img l h
    rw [chainUp_succ_eq] at h
    cases hp : parentOf f img with
    | none =>
      rw [hp] at h; cases h
      exact ⟨List.chain'_singleton _, by intro z hz; simp at hz; exact hz ▸ hp⟩
    | some p =>
      rw [hp] at h
      obtain ⟨l', hl', rfl⟩ := Option.map_eq_some'.mp h
      obtain ⟨hch, hlast⟩ := ih hl'
      refine ⟨List.Chain'.cons hp hch, ?_⟩
      intro z hz
      exact hlast z (by simpa using hz)

theorem chainUp_mem_len {f : List Image0} :
    ∀ {n : Nat} {img : Image0} {l : List Image0},
      chainUp f n img = some l →
        ∀ z ∈ l, ∃ lz, chainUp f n z = some lz ∧ lz.length < l.length := by
  intro n
  induction n with
  | zero =>
    intro img l h z hz
    rw [chainUp_zero_eq] at h
    cases hp : parentOf f img with
    | none => rw [hp] at h; cases h; cases hz
    | some p => rw [hp] at h; cases h
  | succ n ih =>
    intro img l h z hz
    rw [chainUp_succ_eq] at h
    cases hp : parentOf f img with
    | none => rw [hp] at h; cases h; cases hz
    | some p =>
      rw [hp] at h
      obtain ⟨l', hl', rfl⟩ := Option.map_eq_some'.mp h
      rcases List.mem_cons.mp hz with rfl | hz'
      · exact ⟨l', chainUp_succ hl', by simp⟩
      · obtain ⟨lz, hlz, hlen⟩ := ih hl' z hz'
        refine ⟨lz, chainUp_succ hlz, ?_⟩
        simp only [List.length_cons]
        omega

theorem chainUp_nodup {f : List Image0} :
    ∀ {n : Nat} {img : Image0} {l : List Image0},
      chainUp f n img = some l → l.Nodup := by
  intro n
  induction n with
  | zero =>
    intro img l h
    rw [chainUp_zero_eq] at h
    cases hp : parentOf f img with
    | none => rw [hp] at h; cases h; simp
    | some p => rw [hp] at h; cases h
  | succ n ih =>
    intro img l h
    rw [chainUp_succ_eq] at h
    cases hp : parentOf f img with
    | none => rw [hp] at h; cases h; simp
    | some p =>
      rw [hp] at h
      obtain ⟨l', hl', rfl⟩ := Option.map_eq_some'.mp h
      rw [List.nodup_cons]
      refine ⟨?_, ih hl'⟩
      intro hmem
      obtain ⟨lp, hlp, hlen⟩ := chainUp_mem_len hl' p hmem
      have := chainUp_unique hlp hl'
      rw [this] at hlen
      omega

theorem chainUp_not_self_mem {f : List Image0} {n : Nat} {img : Image0}
    {l : List Image0} (h : chainUp f n img = some l) : img ∉ l := by
  intro hmem
  obtain ⟨lz, hlz, hlen⟩ := chainUp_mem_len h img hmem
  have := chainUp_unique hlz h
  rw [this] at hlen
  omega

theorem acyclic_chain {f : List Image0} (hA : acyclicB f = true) {img : Image0}
    (hm : img ∈ f) : ∃ l, chainUp f f.length img = some l := by
  rw [acyclicB, List.all_eq_true] at hA
  exact Option.isSome_iff_exists.mp (hA img hm)

theorem rank_child {f : List Image0} (hN : (idsOf f).Nodup) (hA : acyclicB f = true)
    {a c : Image0} (ha : a ∈ f) (hc : c ∈ f) (hp : c.parentId = some a.id) :
    rankOf f c = rankOf f a + 1 := by
  have hpo : parentOf f c = some a := by rw [parentOf, hp]; exact lookupId_self hN ha
  cases hlen : f.length with
  | zero =>
    rw [List.length_eq_zero] at hlen
    subst hlen
    cases ha
  | succ m =>
    obtain ⟨lc, hlc⟩ := acyclic_chain hA hc
    rw [hlen] at hlc
    have hlc2 := hlc
    rw [chainUp_succ_eq, hpo] at hlc2
    obtain ⟨la', hla', hrfl⟩ := Option.map_eq_some'.mp hlc2
    subst hrfl
    have haa : chainUp f f.length a = some la' := chainUp_mono (by omega) hla'
    have h1 : rankOf f c = la'.length + 1 := by
      unfold rankOf
      rw [hlen, hlc]
      simp
    have h2 : rankOf f a = la'.length := by
      unfold rankOf
      rw [haa]
      simp
    omega

theorem rankOf_le {f : List Image0} (hA : acyclicB f = true) {img : Image0}
    (hm : img ∈ f) : rankOf f img ≤ f.length := by
  obtain ⟨l, hl⟩ := acyclic_chain hA hm
  unfold rankOf
  rw [hl]
  simpa using chainUp_length_le hl

theorem descendantsAux_zero_eq (f : List Image0) (img : Image0) :
    descendantsAux f 0 img = [] := rfl

theorem descendantsAux_succ_eq (f : List Image0) (n : Nat) (img : Image0) :
    descendantsAux f (n + 1) img =
      (childrenOf f img).flatMap (fun c => c :: descendantsAux f n c) := rfl

theorem desc_sound {f : List Image0} :
    ∀ {n : Nat} {a x : Image0}, x ∈ descendantsAux f n a →
      Relation.TransGen (childStep f) a x := by
  intro n
  induction n with
  | zero => intro a x h; cases h
  | succ n ih =>
    intro a x h
    rw [descendantsAux_succ_eq] at h
    obtain ⟨c, hc, hx⟩ := List.mem_flatMap.mp h
    obtain ⟨hcf, hcp⟩ := mem_childrenOf.mp hc
    rcases List.mem_cons.mp hx with rfl | hx'
    · exact Relation.TransGen.single ⟨hcf, hcp⟩
    · exact Relation.TransGen.head ⟨hcf, hcp⟩ (ih hx')

theorem transGen_mem {f : List Image0} {a x : Image0}
    (h : Relation.TransGen (childStep f) a x) : x ∈ f := by
  induction h with
  | single hs => exact hs.1
  | tail _ hs _ => exact hs.1

theorem rank_lt {f : List Image0} (hN : (idsOf f).Nodup) (hA : acyclicB f = true)
    {a x : Image0} (ha : a ∈ f) (h : Relation.TransGen (childStep f) a x) :
    rankOf f a < rankOf f x := by
  induction h with
  | single hs => rw [rank_child hN hA ha hs.1 hs.2]; omega
  | tail hab hs ih =>
    have hb := transGen_mem hab
    rw [rank_child hN hA hb hs.1 hs.2]
    omega

theorem desc_complete {f : List Image0} (hN : (idsOf f).Nodup)
    (hA : acyclicB f = true) {a x : Image0}
    (h : Relation.TransGen (childStep f) a x) :
    ∀ n, a ∈ f → rankOf f x ≤ rankOf f a + n → x ∈ descendantsAux f n a := by
  induction h using Relation.TransGen.head_induction_on with
  | @base a' hs' =>
    intro n ha hr
    have hx : rankOf f x = rankOf f a' + 1 := rank_child hN hA ha hs'.1 hs'.2
    cases n with
    | zero => omega
    | succ n =>
      rw [descendantsAux_succ_eq]
      exact List.mem_flatMap.mpr ⟨x, mem_childrenOf.mpr ⟨hs'.1, hs'.2⟩, List.mem_cons_self _ _⟩
  | @ih a' c hs' htrans' ih' =>
    intro n ha hr
    have hc : c ∈ f := hs'.1
    have hrc : rankOf f c = rankOf f a' + 1 := rank_child hN hA ha hs'.1 hs'.2
    have hlt : rankOf f c < rankOf f x := rank_lt hN hA hc htrans'
    cases n with
    | zero => omega
    | succ n =>
      rw [descendantsAux_succ_eq]
      refine List.mem_flatMap.mpr ⟨c, mem_childrenOf.mpr ⟨hs'.1, hs'.2⟩, ?_⟩
      exact List.mem_cons_of_mem _ (ih' n hc (by omega))

theorem mem_descendantsL_iff {f : List Image0} (hN : (idsOf f).Nodup)
    (hA : acyclicB f = true) {a x : Image0} (ha : a ∈ f) :
    x ∈ descendantsL f a ↔ Relation.TransGen (childStep f) a x := by
  constructor
  · exact desc_sound
  · intro h
    have hx : x ∈ f := transGen_mem h
    exact desc_complete hN hA h f.length ha
      (Nat.le_trans (rankOf_le hA hx) (by omega))

theorem mem_dedupByIdAux {l : List Image0}
    (hinj : ∀ a ∈ l, ∀ b ∈ l, a.id = b.id → a = b) :
    ∀ seen : List String, ∀ y, y ∈ dedupByIdAux seen l ↔ (y ∈ l ∧ y.id ∉ seen) := by
  induction l with
  | nil => intro seen y; simp [dedupByIdAux]
  | cons x rest ih =>
    have hinj' : ∀ a ∈ rest, ∀ b ∈ rest, a.id = b.id → a = b := by
      intro a ha b hb
      exact hinj a (List.mem_cons_of_mem _ ha) b (List.mem_cons_of_mem _ hb)
    intro seen y
    by_cases hx : x.id ∈ seen
    · rw [dedupByIdAux, if_pos hx, ih hinj' seen]
      constructor
      · exact fun ⟨h1, h2⟩ => ⟨List.mem_cons_of_mem _ h1, h2⟩
      · rintro ⟨h1, h2⟩
        rcases List.mem_cons.mp h1 with rfl | h1'
        · exact absurd hx h2
        · exact ⟨h1', h2⟩
    · rw [dedupByIdAux, if_neg hx]
      constructor
      · intro hmem
        rcases List.mem_cons.mp hmem with rfl | h1'
        · exact ⟨List.mem_cons_self _ _, hx⟩
        · obtain ⟨h1, h2⟩ := (ih hinj' (x.id :: seen) y).mp h1'
          refine ⟨List.mem_cons_of_mem _ h1, ?_⟩
          intro hc
          exact h2 (List.mem_cons_of_mem _ hc)
      · rintro ⟨h1, h2⟩
        rcases List.mem_cons.mp h1 with rfl | h1'
        · exact List.mem_cons_self _ _
        · by_cases hid : y.id = x.id
          · have : y = x := hinj y (List.mem_cons_of_mem _ h1') x (List.mem_cons_self _ _) hid
            exact this ▸ List.mem_cons_self _ _
          · refine List.mem_cons_of_mem _ ((ih hinj' (x.id :: seen) y).mpr ⟨h1', ?_⟩)
            intro hc
            rcases List.mem_cons.mp hc with he | hc'
            · exact hid he
            · exact h2 hc'

theorem dedupByIdAux_ids_nodup (l : List Image0) :
    ∀ seen : List String,
      (idsOf (dedupByIdAux seen l)).Nodup ∧
      ∀ y ∈ dedupByIdAux seen l, y.id ∉ seen := by
  induction l with
  | nil => intro seen; simp [dedupByIdAux, idsOf]
  | cons x rest ih =>
    intro seen
    by_cases hx : x.id ∈ seen
    · rw [dedupByIdAux, if_pos hx]
      exact ih seen
    · rw [dedupByIdAux, if_neg hx]
      obtain ⟨hnd, hns⟩ := ih (x.id :: seen)
      constructor
      · have : (idsOf (x :: dedupByIdAux (x.id :: seen) rest))
            = x.id :: idsOf (dedupByIdAux (x.id :: seen) rest) := by simp [idsOf]
        rw [this, List.nodup_cons]
        refine ⟨?_, hnd⟩
        intro hc
        obtain ⟨q, hq, hqid⟩ := mem_idsOf.mp hc
        exact hns q hq (hqid ▸ List.mem_cons_self _ _)
      · intro y hy
        rcases List.mem_cons.mp hy with rfl | hy'
        · exact hx
        · intro hc
          exact hns y hy' (List.mem_cons_of_mem _ hc)

theorem mem_dedupById {l : List Image0}
    (hinj : ∀ a ∈ l, ∀ b ∈ l, a.id = b.id → a = b) {y : Image0} :
    y ∈ dedupById l ↔ y ∈ l := by
  rw [dedupById, mem_dedupByIdAux hinj]
  simp

theorem dedupById_ids_nodup (l : List Image0) : (idsOf (dedupById l)).Nodup :=
  (dedupByIdAux_ids_nodup l []).1

theorem chainUp_cons_of_parent {f : List Image0} {n : Nat} {img q : Image0}
    {l : List Image0} (h : chainUp f n img = some l)
    (hp : parentOf f img = some q) : ∃ l', l = q :: l' := by
  cases n with
  | zero =>
    rw [chainUp_zero_eq, hp] at h
    cases h
  | succ n =>
    rw [chainUp_succ_eq, hp] at h
    obtain ⟨l', _, rfl⟩ := Option.map_eq_some'.mp h
    exact ⟨l', rfl⟩

theorem chainUp_mem_sub {f : List Image0} :
    ∀ {n : Nat} {img : Image0} {l : List Image0},
      chainUp f n img = some l →
        ∀ z ∈ l, ∃ lz, chainUp f n z = some lz ∧ ∀ w ∈ lz, w ∈ l := by
  intro n
  induction n with
  | zero =>
    intro img l h z hz
    rw [chainUp_zero_eq] at h
    cases hp : parentOf f img with
    | none => rw [hp] at h; cases h; cases hz
    | some p => rw [hp] at h; cases h
  | succ n ih =>
    intro img l h z hz
    rw [chainUp_succ_eq] at h
    cases hp : parentOf f img with
    | none => rw [hp] at h; cases h; cases hz
    | some p =>
      rw [hp] at h
      obtain ⟨l', hl', rfl⟩ := Option.map_eq_some'.mp h
      rcases List.mem_cons.mp hz with rfl | hz'
      · exact ⟨l', chainUp_succ hl', fun w hw => List.mem_cons_of_mem _ hw⟩
      · obtain ⟨lz, hlz, hsub⟩ := ih hl' z hz'
        exact ⟨lz, chainUp_succ hlz, fun w hw => List.mem_cons_of_mem _ (hsub w hw)⟩

theorem chain'_mem_succ {R : Image0 → Image0 → Prop} :
    ∀ {l : List Image0}, List.Chain' R l →
      ∀ y ∈ l, (∃ z ∈ l, R y z) ∨ l.getLast? = some y := by
  intro l
  induction l with
  | nil => intro _ y hy; cases hy
  | cons x rest ih =>
    intro hch y hy
    cases rest with
    | nil =>
      rcases List.mem_cons.mp hy with rfl | h'
      · right; rfl
      · cases h'
    | cons z rest' =>
      obtain ⟨hxz, hch'⟩ := List.chain'_cons.mp hch
      rcases List.mem_cons.mp hy with rfl | h'
      · exact Or.inl ⟨z, List.mem_cons_of_mem _ (List.mem_cons_self _ _), hxz⟩
      · rcases ih hch' y h' with ⟨w, hw, hr⟩ | hlast
        · exact Or.inl ⟨w, List.mem_cons_of_mem _ hw, hr⟩
        · right
          rw [List.getLast?_cons_cons]
          exact hlast

theorem nodup_sub_length {l l' : List Image0} (hnd : l.Nodup)
    (hsub : ∀ z ∈ l, z ∈ l') : l.length ≤ l'.length :=
  (List.subperm_of_subset hnd hsub).length_le

theorem parentOf_transfer_none {f S : List Image0} (hSf : ∀ y ∈ S, y ∈ f)
    {y : Image0} (h : parentOf f y = none) : parentOf S y = none := by
  rw [parentOf] at h ⊢
  cases hp : y.parentId with
  | none => rfl
  | some p =>
    rw [hp] at h
    rw [lookupId_eq_none] at h ⊢
    intro hc
    obtain ⟨q, hq, hqid⟩ := mem_idsOf.mp hc
    exact h (mem_idsOf.mpr ⟨q, hSf q hq, hqid⟩)

theorem parentOf_transfer_some {f S : List Image0} (hNS : (idsOf S).Nodup)
    {y q : Image0} (h : parentOf f y = some q) (hqS : q ∈ S) :
    parentOf S y = some q := by
  rw [parentOf] at h ⊢
  cases hp : y.parentId with
  | none => rw [hp] at h; cases h
  | some p =>
    rw [hp] at h
    have hqid : q.id = p := (lookupId_mem h).2
    rw [← hqid]
    exact lookupId_self hNS hqS

theorem chain_transfer {f S : List Image0} (hNS : (idsOf S).Nodup)
    (hSf : ∀ y ∈ S, y ∈ f) :
    ∀ {n : Nat} {y : Image0} {l : List Image0},
      chainUp f n y = some l → (∀ z ∈ l, z ∈ S) → chainUp S n y = some l := by
  intro n
  induction n with
  | zero =>
    intro y l h hsub
    rw [chainUp_zero_eq] at h
    cases hp : parentOf f y with
    | none =>
      rw [hp] at h; cases h
      rw [chainUp_zero_eq, parentOf_transfer_none hSf hp]
    | some p => rw [hp] at h; cases h
  | succ n ih =>
    intro y l h hsub
    rw [chainUp_succ_eq] at h
    cases hp : parentOf f y with
    | none =>
      rw [hp] at h; cases h
      rw [chainUp_succ_eq, parentOf_transfer_none hSf hp]
    | some p =>
      rw [hp] at h
      obtain ⟨l', hl', rfl⟩ := Option.map_eq_some'.mp h
      have hpS : p ∈ S := hsub p (List.mem_cons_self _ _)
      have hl'S : ∀ z ∈ l', z ∈ S := fun z hz => hsub z (List.mem_cons_of_mem _ hz)
      have hstep : chainUp S (n + 1) y
          = Option.map (fun c => p :: c) (chainUp S n p) := by
        rw [chainUp_succ_eq, parentOf_transfer_some hNS hp hpS]
      rw [hstep, ih hl' hl'S]
      rfl

theorem chain_extend {f : List Image0} (hA : acyclicB f = true)
    {y q : Image0} (hq : parentOf f y = some q) (hqf : q ∈ f)
    {lq : List Image0} (hchain : chainUp f f.length q = some lq) :
    chainUp f f.length y = some (q :: lq) := by
  cases hlen : f.length with
  | zero =>
    rw [List.length_eq_zero] at hlen
    subst hlen
    cases hqf
  | succ m =>
    have hmin := chainUp_min hchain
    have hbound : lq.length + 1 ≤ f.length := by
      have hnd : (q :: lq).Nodup :=
        List.nodup_cons.mpr ⟨chainUp_not_self_mem hchain, chainUp_nodup hchain⟩
      have hsub : ∀ z ∈ q :: lq, z ∈ f := by
        intro z hz
        rcases List.mem_cons.mp hz with rfl | hz'
        · exact hqf
        · exact chainUp_mem hchain z hz'
      simpa using nodup_sub_length hnd hsub
    have hq2 : chainUp f m q = some lq := chainUp_mono (by omega) hmin
    have hstep : chainUp f (m + 1) y
        = Option.map (fun c => q :: c) (chainUp f m q) := by
      rw [chainUp_succ_eq, hq]
    rw [hstep, hq2]
    rfl

theorem desc_chain_in {f : List Image0} (hN : (idsOf f).Nodup) (hA : acyclicB f = true)
    {ix : Image0} (hix : ix ∈ f) {lch : List Image0}
    (hichain : chainUp f f.length ix = some lch)
    {S : List Image0} (hixS : ix ∈ S) (hlchS : ∀ z ∈ lch, z ∈ S)
    (hdescS : ∀ z, Relation.TransGen (childStep f) ix z → z ∈ S) :
    ∀ {y : Image0}, Relation.TransGen (childStep f) ix y →
      ∃ ly, chainUp f f.length y = some ly ∧ ∀ z ∈ ly, z ∈ S := by
  intro y h
  induction h with
  | @single b hs =>
    have hpo : parentOf f b = some ix := by
      rw [parentOf, hs.2]
      exact lookupId_self hN hix
    refine ⟨ix :: lch, chain_extend hA hpo hix hichain, ?_⟩
    intro z hz
    rcases List.mem_cons.mp hz with rfl | hz'
    · exact hixS
    · exact hlchS z hz'
  | @tail b c hab hs ih =>
    obtain ⟨lb, hlb, hlbS⟩ := ih
    have hbf : b ∈ f := transGen_mem hab
    have hpo : parentOf f c = some b := by
      rw [parentOf, hs.2]
      exact lookupId_self hN hbf
    refine ⟨b :: lb, chain_extend hA hpo hbf hlb, ?_⟩
    intro z hz
    rcases List.mem_cons.mp hz with he | hz'
    · rw [he]
      exact hdescS b hab
    · exact hlbS z hz'

theorem cook_single_eq {f : List Image0} {x : String} {ix : Image0}
    (hx : lookupId f x = some ix) :
    cookSubimages f [x] =
      buildImages (dedupById (ix :: (ancestorsL f ix ++ descendantsL f ix))) := by
  unfold cookSubimages
  have h1 : List.find? (fun t => (lookupId f t).isNone) [x] = none := by
    simp [List.find?, hx]
  have h2 : List.filterMap (lookupId f) [x] = [ix] := by simp [hx]
  rw [h1, h2]
  simp

theorem charListLe_total : ∀ a b : List Char, (charListLe a b || charListLe b a) = true := by
  intro a
  induction a with
  | nil => intro b; simp [charListLe]
  | cons x xs ih =>
    intro b
    cases b with
    | nil => simp [charListLe]
    | cons y ys =>
      by_cases h1 : x < y
      · simp [charListLe, h1]
      · by_cases h2 : y < x
        · simp [charListLe, h1, h2]
        · simp only [charListLe, if_neg h1, if_neg h2]
          exact ih ys

theorem charListLe_trans :
    ∀ a b c : List Char, charListLe a b = true → charListLe b c = true →
      charListLe a c = true := by
  intro a
  induction a with
  | nil => intro b c _ _; simp [charListLe]
  | cons x xs ih =>
    intro b c hab hbc
    cases b with
    | nil => simp [charListLe] at hab
    | cons y ys =>
      cases c with
      | nil => simp [charListLe] at hbc
      | cons z zs =>
        simp only [charListLe] at hab hbc ⊢
        by_cases hxy : x < y
        · have hyz : y < z ∨ y = z := by
            by_cases h1 : y < z
            · exact Or.inl h1
            · by_cases h2 : z < y
              · rw [if_neg h1, if_pos h2] at hbc; cases hbc
              · exact Or.inr (le_antisymm (not_lt.mp h2) (not_lt.mp h1))
          have hxz : x < z := by
            rcases hyz with h | h
            · exact lt_trans hxy h
            · exact h ▸ hxy
          rw [if_pos hxz]
        · by_cases hyx : y < x
          · rw [if_neg hxy, if_pos hyx] at hab; cases hab
          · have hxy' : x = y := le_antisymm (not_lt.mp hyx) (not_lt.mp hxy)
            subst hxy'
            rw [if_neg hxy, if_neg hxy] at hab
            by_cases hyz : x < z
            · rw [if_pos hyz]
            · by_cases hzy : z < x
              · rw [if_neg hyz, if_pos hzy] at hbc; cases hbc
              · rw [if_neg hyz, if_neg hzy] at hbc ⊢
                exact ih ys zs hab hbc

instance : IsTotal Image0 imgLe :=
  ⟨fun a b => by
    rcases Bool.or_eq_true_iff.mp (charListLe_total (sortingStr a).data (sortingStr b).data)
      with h | h
    · exact Or.inl h
    · exact Or.inr h⟩

instance : IsTrans Image0 imgLe :=
  ⟨fun a b c hab hbc => charListLe_trans _ _ _ hab hbc⟩

instance : IsTotal String tagLe :=
  ⟨fun a b => by
    rcases Bool.or_eq_true_iff.mp (charListLe_total (tagKey a).data (tagKey b).data)
      with h | h
    · exact Or.inl h
    · exact Or.inr h⟩

instance : IsTrans String tagLe :=
  ⟨fun a b c hab hbc => charListLe_trans _ _ _ hab hbc⟩

theorem imageSorted_pairwise (l : List Image0) :
    List.Pairwise imgLe (imageSorted l) :=
  List.sorted_insertionSort imgLe l

theorem imageSorted_idem (l : List Image0) :
    imageSorted (imageSorted l) = imageSorted l :=
  List.Sorted.insertionSort_eq (List.sorted_insertionSort imgLe l)

theorem charListLe_cons_same (c : Char) (a b : List Char) :
    charListLe (c :: a) (c :: b) = charListLe a b := by
  simp [charListLe]

theorem charListLe_B_A (a b : List Char) :
    charListLe ('B' :: a) ('A' :: b) = false := by
  simp only [charListLe]
  rw [if_neg (by decide), if_pos (by decide)]

theorem pack_lt {B qm qn rm rn m n : Nat}
    (hdm : B * qm + rm = m) (hdn : B * qn + rn = n)
    (hrm : rm < B) (h : qm < qn) : m < n := by
  have hstep : B * qm + B ≤ B * qn := by
    calc B * qm + B = B * (qm + 1) := by ring
      _ ≤ B * qn := Nat.mul_le_mul_left _ h
  linarith

theorem pack_mod_le {B qm rm rn m n : Nat}
    (hdm : B * qm + rm = m) (hdn : B * qm + rn = n) :
    m ≤ n ↔ rm ≤ rn := by
  constructor <;> intro h <;> linarith

theorem padNum_append :
    ∀ (w1 : Nat) {w2 : Nat} {m n : Nat}, m < 10 ^ w1 → n < 10 ^ w2 →
      padNum w1 m ++ padNum w2 n = padNum (w1 + w2) (m * 10 ^ w2 + n) := by
  intro w1
  induction w1 with
  | zero =>
    intro w2 m n hm hn
    have : m = 0 := by omega
    subst this
    simp [padNum]
  | succ w1 ih =>
    intro w2 m n hm hn
    have hB1 : 0 < 10 ^ w1 := Nat.pos_pow_of_pos w1 (by omega)
    have hB2 : 0 < 10 ^ w2 := Nat.pos_pow_of_pos w2 (by omega)
    have hdm := Nat.div_add_mod m (10 ^ w1)
    have hmod : m % 10 ^ w1 < 10 ^ w1 := Nat.mod_lt _ hB1
    -- head digit of the combined number
    have hpow : 10 ^ (w1 + w2) = 10 ^ w1 * 10 ^ w2 := by rw [pow_add]
    have hsm : (m % 10 ^ w1) * 10 ^ w2 + n < 10 ^ (w1 + w2) := by
      rw [hpow]
      calc (m % 10 ^ w1) * 10 ^ w2 + n
          < (m % 10 ^ w1) * 10 ^ w2 + 10 ^ w2 := by omega
        _ = (m % 10 ^ w1 + 1) * 10 ^ w2 := by ring
        _ ≤ 10 ^ w1 * 10 ^ w2 := Nat.mul_le_mul_right _ (by omega)
    have hcomb : m * 10 ^ w2 + n
        = ((m % 10 ^ w1) * 10 ^ w2 + n) + (m / 10 ^ w1) * 10 ^ (w1 + w2) := by
      rw [hpow]
      nlinarith [hdm]
    have hdiv : (m * 10 ^ w2 + n) / 10 ^ (w1 + w2) = m / 10 ^ w1 := by
      rw [hcomb, Nat.add_mul_div_right _ _ (by positivity),
        Nat.div_eq_of_lt hsm]
      omega
    have hmod2 : (m * 10 ^ w2 + n) % 10 ^ (w1 + w2) = (m % 10 ^ w1) * 10 ^ w2 + n := by
      rw [hcomb, Nat.add_mul_mod_self_right, Nat.mod_eq_of_lt hsm]
    show Nat.digitChar (m / 10 ^ w1) :: (padNum w1 (m % 10 ^ w1) ++ padNum w2 n)
        = padNum (w1 + 1 + w2) (m * 10 ^ w2 + n)
    have hw : w1 + 1 + w2 = (w1 + w2) + 1 := by omega
    rw [hw]
    show Nat.digitChar (m / 10 ^ w1) :: (padNum w1 (m % 10 ^ w1) ++ padNum w2 n)
        = Nat.digitChar ((m * 10 ^ w2 + n) / 10 ^ (w1 + w2))
          :: padNum (w1 + w2) ((m * 10 ^ w2 + n) % 10 ^ (w1 + w2))
    rw [hdiv, hmod2, ih hmod hn]

theorem digitChar_lt_iff {a b : Nat} (ha : a < 10) (hb : b < 10) :
    Nat.digitChar a < Nat.digitChar b ↔ a < b := by
  interval_cases a <;> interval_cases b <;> decide

theorem charListLe_padNum {w : Nat} {m n : Nat} (hm : m < 10 ^ w) (hn : n < 10 ^ w) :
    charListLe (padNum w m) (padNum w n) = decide (m ≤ n) := by
  induction w generalizing m n with
  | zero =>
    have hm0 : m = 0 := by omega
    have hn0 : n = 0 := by omega
    subst hm0; subst hn0
    simp [padNum, charListLe]
  | succ w ih =>
    have hB : 0 < 10 ^ w := Nat.pos_pow_of_pos w (by omega)
    have hd1 : m / 10 ^ w < 10 :=
      Nat.div_lt_of_lt_mul (lt_of_lt_of_eq hm (by ring))
    have hd2 : n / 10 ^ w < 10 :=
      Nat.div_lt_of_lt_mul (lt_of_lt_of_eq hn (by ring))
    show charListLe
        (Nat.digitChar (m / 10 ^ w) :: padNum w (m % 10 ^ w))
        (Nat.digitChar (n / 10 ^ w) :: padNum w (n % 10 ^ w)) = decide (m ≤ n)
    have hdm := Nat.div_add_mod m (10 ^ w)
    have hdn := Nat.div_add_mod n (10 ^ w)
    have hmm : m % 10 ^ w < 10 ^ w := Nat.mod_lt _ hB
    have hnn : n % 10 ^ w < 10 ^ w := Nat.mod_lt _ hB
    simp only [charListLe]
    by_cases h1 : m / 10 ^ w < n / 10 ^ w
    · rw [if_pos ((digitChar_lt_iff hd1 hd2).mpr h1)]
      have : m ≤ n := le_of_lt (pack_lt hdm hdn hmm h1)
      simp [this]
    · by_cases h2 : n / 10 ^ w < m / 10 ^ w
      · rw [if_neg (by rw [digitChar_lt_iff hd1 hd2]; omega),
          if_pos ((digitChar_lt_iff hd2 hd1).mpr h2)]
        have : ¬(m ≤ n) := not_le.mpr (pack_lt hdn hdm hnn h2)
        simp [this]
      · have heq : m / 10 ^ w = n / 10 ^ w := by omega
        rw [if_neg (by rw [digitChar_lt_iff hd1 hd2]; omega),
          if_neg (by rw [digitChar_lt_iff hd2 hd1]; omega)]
        rw [ih hmm hnn]
        rw [heq] at hdm
        have hm2 : m ≤ n ↔ m % 10 ^ w ≤ n % 10 ^ w := pack_mod_le hdm hdn
        simp [hm2]

theorem dtKeyNat_lt {c : PyDateTime} (hv : validDT c) : dtKeyNat c < 10 ^ 20 := by
  obtain ⟨h1, h2, h3, h4, h5, h6, h7⟩ := hv
  unfold dtKeyNat
  omega

theorem strftimeKey_eq (c : PyDateTime) (hv : validDT c) :
    strftimeKey c = padNum 20 (dtKeyNat c) := by
  obtain ⟨h1, h2, h3, h4, h5, h6, h7⟩ := hv
  have b1 : c.year * 10 ^ 2 + c.month < 10 ^ 6 := by omega
  have b2 : (c.year * 10 ^ 2 + c.month) * 10 ^ 2 + c.day < 10 ^ 8 := by omega
  have b3 : ((c.year * 10 ^ 2 + c.month) * 10 ^ 2 + c.day) * 10 ^ 2 + c.hour
      < 10 ^ 10 := by omega
  have b4 : (((c.year * 10 ^ 2 + c.month) * 10 ^ 2 + c.day) * 10 ^ 2 + c.hour) * 10 ^ 2
      + c.minute < 10 ^ 12 := by omega
  have b5 : ((((c.year * 10 ^ 2 + c.month) * 10 ^ 2 + c.day) * 10 ^ 2 + c.hour) * 10 ^ 2
      + c.minute) * 10 ^ 2 + c.second < 10 ^ 14 := by omega
  rw [strftimeKey]
  rw [padNum_append 4 h1 h2, padNum_append 6 b1 h3, padNum_append 8 b2 h4,
    padNum_append 10 b3 h5, padNum_append 12 b4 h6, padNum_append 14 b5 h7]
  have : (((((c.year * 10 ^ 2 + c.month) * 10 ^ 2 + c.day) * 10 ^ 2 + c.hour) * 10 ^ 2
      + c.minute) * 10 ^ 2 + c.second) * 10 ^ 6 + c.microsecond = dtKeyNat c := by
    unfold dtKeyNat
    ring_nf
  rw [this]

theorem dtLeB_iff (a b : PyDateTime) (ha : validDT a) (hb : validDT b) :
    (dtLeB a b = true) ↔ dtKeyNat a ≤ dtKeyNat b := by
  obtain ⟨a1, a2, a3, a4, a5, a6, a7⟩ := ha
  obtain ⟨b1, b2, b3, b4, b5, b6, b7⟩ := hb
  unfold dtLeB dtKeyNat
  split_ifs <;> simp <;> omega

theorem tagKey_data (t : String) :
    (tagKey t).data = (if isLatestB t then 'A' else 'B') :: t.data := by
  by_cases h : String.mk (t.data.drop (t.data.length - 7)) = ":latest"
  · have h2 : isLatestB t = true := by rw [isLatestB]; exact decide_eq_true h
    rw [tagKey, if_pos h, h2]
    rfl
  · have h2 : isLatestB t = false := by rw [isLatestB]; exact decide_eq_false h
    rw [tagKey, if_neg h, h2]
    rfl

theorem sortingStr_tagged {img : Image0} (h : hasTagsB img = true) :
    (sortingStr img).data = 'A' :: (joinComma (sortTags img.repoTags)).data := by
  rw [sortingStr, if_pos h]
  rfl

theorem sortingStr_untagged {img : Image0} (h : hasTagsB img = false) :
    (sortingStr img).data = 'B' :: strftimeKey img.ctime := by
  rw [sortingStr, if_neg (by rw [h]; exact Bool.false_ne_true)]
  rfl

/-- C1: for every forest built from finite acyclic records (unique ids,
resolving parent references, no parent cycles) and every target id `x`
present in it, `cook_subimages` on the single target `x` produces a forest
whose node set is exactly the target, its strict ancestors and its
descendants, deduplicated by id and nothing else; every node's `parentId`
in the result resolves within the result; and extracting again from the
output reproduces the same node set (idempotent fixed point). -/
theorem cook_subimages_extract_spec (f : List Image0) (x : String) (ix : Image0)
    (hN : (idsOf f).Nodup) (hR : resolvesB f = true) (hA : acyclicB f = true)
    (hx : lookupId f x = some ix) :
    ∃ S, cookSubimages f [x] = Except.ok S ∧
      (idsOf S).Nodup ∧
      (∀ y, y ∈ S ↔ (y = ix ∨ y ∈ ancestorsL f ix ∨ y ∈ descendantsL f ix)) ∧
      (∀ y ∈ S, ∀ p, y.parentId = some p → p ∈ idsOf S) ∧
      ∃ S2, cookSubimages S [x] = Except.ok S2 ∧ ∀ y, y ∈ S2 ↔ y ∈ S := by
  have hR' := resolvesB_iff.mp hR
  have hixf : ix ∈ f := (lookupId_mem hx).1
  have hixid : ix.id = x := (lookupId_mem hx).2
  obtain ⟨lch, hlch⟩ := acyclic_chain hA hixf
  have hanc : ancestorsL f ix = lch.reverse := by rw [ancestorsL, hlch]; rfl
  have hancmem : ∀ y : Image0, y ∈ ancestorsL f ix ↔ y ∈ lch := by
    intro y
    rw [hanc, List.mem_reverse]
  set U := ix :: (ancestorsL f ix ++ descendantsL f ix) with hU
  have hUf : ∀ y ∈ U, y ∈ f := by
    intro y hy
    rcases List.mem_cons.mp hy with he | hy'
    · rw [he]; exact hixf
    rcases List.mem_append.mp hy' with ha | hd
    · exact chainUp_mem hlch y ((hancmem y).mp ha)
    · exact transGen_mem (desc_sound hd)
  have hancU : ∀ z ∈ lch, z ∈ U := by
    intro z hz
    rw [hU]
    exact List.mem_cons_of_mem _ (List.mem_append.mpr (Or.inl ((hancmem z).mpr hz)))
  have hinj : ∀ a ∈ U, ∀ b ∈ U, a.id = b.id → a = b :=
    fun a ha b hb => id_inj hN (hUf a ha) (hUf b hb)
  set S := dedupById U with hS
  have hmemS : ∀ y : Image0, y ∈ S ↔ y ∈ U := fun y => mem_dedupById hinj
  have hndS : (idsOf S).Nodup := dedupById_ids_nodup U
  have hSf : ∀ y ∈ S, y ∈ f := fun y hy => hUf y ((hmemS y).mp hy)
  have hmemU : ∀ y : Image0,
      y ∈ U ↔ (y = ix ∨ y ∈ ancestorsL f ix ∨ y ∈ descendantsL f ix) := by
    intro y
    rw [hU]
    simp [List.mem_cons, List.mem_append]
  obtain ⟨hchain', hlast'⟩ := chainUp_chain hlch
  have hclose : ∀ y ∈ U, ∀ p, y.parentId = some p → ∃ z ∈ U, z.id = p := by
    intro y hy p hp
    rcases List.mem_cons.mp hy with he | hy'
    · subst he
      have hpin : p ∈ idsOf f := hR' y hixf p hp
      rcases hq2 : lookupId f p with _ | q
      · exact absurd (lookupId_eq_none.mp hq2) (by simpa using hpin)
      · have hpo : parentOf f y = some q := by
          rw [parentOf, hp]
          exact hq2
        obtain ⟨l', hl'⟩ := chainUp_cons_of_parent hlch hpo
        refine ⟨q, ?_, (lookupId_mem hq2).2⟩
        exact hancU q (hl' ▸ List.mem_cons_self _ _)
    rcases List.mem_append.mp hy' with ha | hd
    · have hylch : y ∈ lch := (hancmem y).mp ha
      rcases chain'_mem_succ hchain' y (List.mem_cons_of_mem _ hylch) with ⟨z, hz, hrz⟩ | hlast
      · have hzid : z.id = p := by
          rw [parentOf, hp] at hrz
          exact (lookupId_mem hrz).2
        refine ⟨z, ?_, hzid⟩
        rcases List.mem_cons.mp hz with he | hz'
        · rw [he]; exact List.mem_cons_self _ _
        · exact hancU z hz'
      · have hnone := hlast' y hlast
        rw [parentOf, hp] at hnone
        exact absurd (hR' y (hUf y hy) p hp) (lookupId_eq_none.mp hnone)
    · have htg := desc_sound hd
      obtain ⟨b, hrt, hstep⟩ := Relation.TransGen.tail'_iff.mp htg
      have hbid : b.id = p := by
        have h2 := hstep.2
        rw [hp] at h2
        exact (Option.some.inj h2).symm
      refine ⟨b, ?_, hbid⟩
      rcases Relation.reflTransGen_iff_eq_or_transGen.mp hrt with he | htb
      · rw [he]; exact List.mem_cons_self _ _
      · rw [hU]
        exact List.mem_cons_of_mem _
          (List.mem_append.mpr (Or.inr ((mem_descendantsL_iff hN hA hixf).mpr htb)))
  have hcloseS : ∀ y ∈ S, ∀ p, y.parentId = some p → p ∈ idsOf S := by
    intro y hy p hp
    obtain ⟨z, hz, hzid⟩ := hclose y ((hmemS y).mp hy) p hp
    exact mem_idsOf.mpr ⟨z, (hmemS z).mpr hz, hzid⟩
  have hbuildS : buildImages S = Except.ok S := buildImages_ok hndS hcloseS
  have hcook1 : cookSubimages f [x] = Except.ok S := by
    rw [cook_single_eq hx, ← hU, ← hS]
    exact hbuildS
  have hixS : ix ∈ S := (hmemS ix).mpr (List.mem_cons_self _ _)
  have hlchS : ∀ z ∈ lch, z ∈ S := fun z hz => (hmemS z).mpr (hancU z hz)
  have hdescS : ∀ z, Relation.TransGen (childStep f) ix z → z ∈ S := by
    intro z hz
    refine (hmemS z).mpr ?_
    rw [hU]
    exact List.mem_cons_of_mem _
      (List.mem_append.mpr (Or.inr ((mem_descendantsL_iff hN hA hixf).mpr hz)))
  have hchainS0 : chainUp S lch.length ix = some lch :=
    chain_transfer hndS hSf (chainUp_min hlch) hlchS
  have hlchlen : lch.length ≤ S.length :=
    nodup_sub_length (chainUp_nodup hlch) hlchS
  have hchainS : chainUp S S.length ix = some lch := chainUp_mono hlchlen hchainS0
  have hancS : ancestorsL S ix = ancestorsL f ix := by
    rw [ancestorsL, hchainS, hanc]
    rfl
  have hAS : acyclicB S = true := by
    rw [acyclicB, List.all_eq_true]
    intro y hyS
    have hget : ∃ ly, chainUp f f.length y = some ly ∧ ∀ z ∈ ly, z ∈ S := by
      rcases (hmemU y).mp ((hmemS y).mp hyS) with he | ha | hd
      · rw [he]; exact ⟨lch, hlch, hlchS⟩
      · have hylch : y ∈ lch := (hancmem y).mp ha
        obtain ⟨ly, hly, hsub⟩ := chainUp_mem_sub hlch y hylch
        exact ⟨ly, hly, fun z hz => hlchS z (hsub z hz)⟩
      · exact desc_chain_in hN hA hixf hlch hixS hlchS hdescS (desc_sound hd)
    obtain ⟨ly, hly, hlyS⟩ := hget
    have h1 : chainUp S ly.length y = some ly :=
      chain_transfer hndS hSf (chainUp_min hly) hlyS
    have h2 : ly.length ≤ S.length := nodup_sub_length (chainUp_nodup hly) hlyS
    simp [chainUp_mono h2 h1]
  have hdescEq : ∀ y : Image0, y ∈ descendantsL S ix ↔ y ∈ descendantsL f ix := by
    intro y
    rw [mem_descendantsL_iff hndS hAS hixS, mem_descendantsL_iff hN hA hixf]
    constructor
    · exact Relation.TransGen.mono (fun a b hab => ⟨hSf b hab.1, hab.2⟩)
    · intro h
      induction h with
      | @single b hs =>
        exact Relation.TransGen.single ⟨hdescS b (Relation.TransGen.single hs), hs.2⟩
      | @tail b c hab hs ih =>
        exact Relation.TransGen.tail ih ⟨hdescS c (Relation.TransGen.tail hab hs), hs.2⟩
  have hxS : lookupId S x = some ix := hixid ▸ lookupId_self hndS hixS
  set U2 := ix :: (ancestorsL S ix ++ descendantsL S ix) with hU2
  have hU2S : ∀ y ∈ U2, y ∈ S := by
    intro y hy
    rcases List.mem_cons.mp hy with he | hy'
    · rw [he]; exact hixS
    rcases List.mem_append.mp hy' with ha | hd
    · rw [hancS] at ha
      exact hlchS y ((hancmem y).mp ha)
    · exact transGen_mem (desc_sound hd)
  have hinj2 : ∀ a ∈ U2, ∀ b ∈ U2, a.id = b.id → a = b :=
    fun a ha b hb => id_inj hndS (hU2S a ha) (hU2S b hb)
  set S2 := dedupById U2 with hS2
  have hmemS2 : ∀ y : Image0, y ∈ S2 ↔ y ∈ U2 := fun y => mem_dedupById hinj2
  have hmemU2 : ∀ y : Image0, y ∈ U2 ↔ y ∈ U := by
    intro y
    rw [hU2, hU, hancS]
    simp only [List.mem_cons, List.mem_append]
    rcases hdescEq y with ⟨h1, h2⟩
    constructor
    · rintro (he | ha | hd)
      · exact Or.inl he
      · exact Or.inr (Or.inl ha)
      · exact Or.inr (Or.inr (h1 hd))
    · rintro (he | ha | hd)
      · exact Or.inl he
      · exact Or.inr (Or.inl ha)
      · exact Or.inr (Or.inr (h2 hd))
  have hndS2 : (idsOf S2).Nodup := dedupById_ids_nodup U2
  have hcloseS2 : ∀ y ∈ S2, ∀ p, y.parentId = some p → p ∈ idsOf S2 := by
    intro y hy p hp
    have hyU : y ∈ U := (hmemU2 y).mp ((hmemS2 y).mp hy)
    obtain ⟨z, hz, hzid⟩ := hclose y hyU p hp
    exact mem_idsOf.mpr ⟨z, (hmemS2 z).mpr ((hmemU2 z).mpr hz), hzid⟩
  have hbuildS2 : buildImages S2 = Except.ok S2 := buildImages_ok hndS2 hcloseS2
  have hcook2 : cookSubimages S [x] = Except.ok S2 := by
    rw [cook_single_eq hxS, ← hU2, ← hS2]
    exact hbuildS2
  refine ⟨S, hcook1, hndS, ?_, hcloseS, S2, hcook2, ?_⟩
  · intro y
    rw [hmemS y, hmemU y]
  · intro y
    rw [hmemS2 y, hmemU2 y, ← hmemS y]

/-- Witness for `cook_subimages_extract_spec` at the concrete two-image
forest `forestAB` with target `"bbbb2222"`. -/
theorem cook_subimages_extract_spec_witness :
    ((idsOf forestAB).Nodup ∧ resolvesB forestAB = true ∧ acyclicB forestAB = true
      ∧ lookupId forestAB "bbbb2222" = some imgB) ∧
    (∃ S, cookSubimages forestAB ["bbbb2222"] = Except.ok S ∧
      (idsOf S).Nodup ∧
      (∀ y, y ∈ S ↔ (y = imgB ∨ y ∈ ancestorsL forestAB imgB
        ∨ y ∈ descendantsL forestAB imgB)) ∧
      (∀ y ∈ S, ∀ p, y.parentId = some p → p ∈ idsOf S) ∧
      ∃ S2, cookSubimages S ["bbbb2222"] = Except.ok S2 ∧ ∀ y, y ∈ S2 ↔ y ∈ S) :=
  ⟨⟨by decide, by decide, by decide, by decide⟩,
    cook_subimages_extract_spec forestAB "bbbb2222" imgB
      (by decide) (by decide) (by decide) (by decide)⟩


/-- C2: for every finite acyclic collection of input records with unique
ids whose parent references all resolve within the collection,
`Images.__init__` succeeds and, for each node, `parent` is the node whose
id equals its `parent_id` (and `None` otherwise) while `children` consists
exactly of the nodes whose `parent_id` equals its id; traversing
`children` back to `parent` reproduces the original `parent_id`
relationships exactly (round-trip). -/
theorem forest_build_roundtrip (l : List Image0)
    (hN : (idsOf l).Nodup)
    (hR : resolvesB l = true)
    (hA : acyclicB l = true) :
    buildImages l = Except.ok l ∧
    ∀ img ∈ l,
      (∀ p, img.parentId = some p → ∃ q, parentOf l img = some q ∧ q ∈ l ∧ q.id = p) ∧
      (img.parentId = none → parentOf l img = none) ∧
      (∀ c, c ∈ childrenOf l img ↔ (c ∈ l ∧ c.parentId = some img.id)) ∧
      (∀ c, c ∈ childrenOf l img → parentOf l c = some img) := by
  have hR' := resolvesB_iff.mp hR
  refine ⟨buildImages_ok hN hR', ?_⟩
  intro img hmem
  refine ⟨?_, ?_, fun c => mem_childrenOf, ?_⟩
  · intro p hp
    have hpi := hR' img hmem p hp
    rcases hq : lookupId l p with _ | q
    · exact absurd (lookupId_eq_none.mp hq) (by simpa using hpi)
    · exact ⟨q, by simp [parentOf, hp, hq], (lookupId_mem hq).1, (lookupId_mem hq).2⟩
  · intro hnp; simp [parentOf, hnp]
  · intro c hc
    obtain ⟨hcm, hcp⟩ := mem_childrenOf.mp hc
    simp [parentOf, hcp, lookupId_self hN hmem]

/-- Witness for `forest_build_roundtrip` at the two-image forest. -/
theorem forest_build_roundtrip_witness :
    ((idsOf forestAB).Nodup ∧ resolvesB forestAB = true ∧ acyclicB forestAB = true) ∧
    (buildImages forestAB = Except.ok forestAB ∧
      ∀ img ∈ forestAB,
        (∀ p, img.parentId = some p →
          ∃ q, parentOf forestAB img = some q ∧ q ∈ forestAB ∧ q.id = p) ∧
        (img.parentId = none → parentOf forestAB img = none) ∧
        (∀ c, c ∈ childrenOf forestAB img ↔ (c ∈ forestAB ∧ c.parentId = some img.id)) ∧
        (∀ c, c ∈ childrenOf forestAB img → parentOf forestAB c = some img)) :=
  ⟨⟨by decide, by decide, by decide⟩,
    forest_build_roundtrip forestAB (by decide) (by decide) (by decide)⟩


/-- C3 counterexample: `_sort_tags` puts any tag whose last seven
characters are `":latest"` first, not only a tag EQUAL to the `":latest"`
marker: on `["z:latest", "a"]` the code keeps `"z:latest"` first, while
the ordering the claim describes (equality with the marker, then
lexicographic) would sort `"a"` first. -/
theorem sort_tags_latest_marker_counterexample :
    sortTags ["z:latest", "a"] = ["z:latest", "a"] ∧
    specSortTags ["z:latest", "a"] = ["a", "z:latest"] ∧
    (["z:latest", "a"] : List String) ≠ ["a", "z:latest"] :=
  ⟨by decide, by decide, by decide⟩


/-- C3 (amended): in every sorted listing, tagged nodes precede untagged
nodes; among tagged nodes ties are broken by the joined tag key, where a
tag WHOSE LAST SEVEN CHARACTERS ARE `":latest"` sorts before all tags
lacking that suffix with lexicographic secondary order, tags then
comma-joined into the key; among untagged nodes ties are broken by
creation time ascending via the fixed-width `YYYYMMDDHHMMSSffffff` key
(for in-range timestamp fields); and re-sorting an already-sorted
sequence is a no-op. -/
theorem sorted_order_spec (l : List Image0) (hv : ∀ i ∈ l, validDT i.ctime) :
    List.Pairwise (fun a b => hasTagsB b = true → hasTagsB a = true) (imageSorted l) ∧
    List.Pairwise (fun a b => hasTagsB a = true → hasTagsB b = true →
      pyStrLe (joinComma (sortTags a.repoTags)) (joinComma (sortTags b.repoTags)) = true)
      (imageSorted l) ∧
    List.Pairwise (fun a b => hasTagsB a = false → hasTagsB b = false →
      dtLeB a.ctime b.ctime = true) (imageSorted l) ∧
    (∀ tags : List String, List.Pairwise (fun t u =>
      (isLatestB u = true → isLatestB t = true) ∧
      (isLatestB t = isLatestB u → pyStrLe t u = true)) (sortTags tags)) ∧
    imageSorted (imageSorted l) = imageSorted l := by
  have hpw : List.Pairwise imgLe (imageSorted l) := imageSorted_pairwise l
  refine ⟨?_, ?_, ?_, ?_, imageSorted_idem l⟩
  · refine hpw.imp ?_
    intro a b hab hbt
    by_contra hat
    have hat' : hasTagsB a = false := by simpa using hat
    rw [imgLe, pyStrLe, sortingStr_untagged hat', sortingStr_tagged hbt,
      charListLe_B_A] at hab
    cases hab
  · refine hpw.imp ?_
    intro a b hab hat hbt
    rw [imgLe, pyStrLe, sortingStr_tagged hat, sortingStr_tagged hbt,
      charListLe_cons_same] at hab
    exact hab
  · refine hpw.imp_of_mem ?_
    intro a b hma hmb hab hat hbt
    have hva : validDT a.ctime :=
      hv a ((List.perm_insertionSort imgLe l).mem_iff.mp hma)
    have hvb : validDT b.ctime :=
      hv b ((List.perm_insertionSort imgLe l).mem_iff.mp hmb)
    rw [imgLe, pyStrLe, sortingStr_untagged hat, sortingStr_untagged hbt,
      charListLe_cons_same, strftimeKey_eq _ hva, strftimeKey_eq _ hvb,
      charListLe_padNum (dtKeyNat_lt hva) (dtKeyNat_lt hvb)] at hab
    rw [dtLeB_iff _ _ hva hvb]
    simpa using hab
  · intro tags
    have hpt : List.Pairwise tagLe (sortTags tags) :=
      List.sorted_insertionSort tagLe tags
    refine hpt.imp ?_
    intro t u htu
    rw [tagLe, pyStrLe, tagKey_data, tagKey_data] at htu
    cases hLt : isLatestB t <;> cases hLu : isLatestB u
    · rw [hLt, hLu] at htu
      simp only [Bool.false_eq_true, if_false] at htu
      rw [charListLe_cons_same] at htu
      exact ⟨(fun h => nomatch h), fun _ => htu⟩
    · rw [hLt, hLu] at htu
      simp only [Bool.false_eq_true, if_false, if_true] at htu
      rw [charListLe_B_A] at htu
      cases htu
    · exact ⟨fun _ => rfl, fun h => nomatch h⟩
    · rw [hLt, hLu] at htu
      simp only [if_true] at htu
      rw [charListLe_cons_same] at htu
      exact ⟨fun _ => rfl, fun _ => htu⟩

/-- Witness for `sorted_order_spec` at the two-image forest. -/
theorem sorted_order_spec_witness :
    (∀ i ∈ forestAB, validDT i.ctime) ∧
    (List.Pairwise (fun a b => hasTagsB b = true → hasTagsB a = true)
      (imageSorted forestAB) ∧
    List.Pairwise (fun a b => hasTagsB a = true → hasTagsB b = true →
      pyStrLe (joinComma (sortTags a.repoTags)) (joinComma (sortTags b.repoTags)) = true)
      (imageSorted forestAB) ∧
    List.Pairwise (fun a b => hasTagsB a = false → hasTagsB b = false →
      dtLeB a.ctime b.ctime = true) (imageSorted forestAB) ∧
    (∀ tags : List String, List.Pairwise (fun t u =>
      (isLatestB u = true → isLatestB t = true) ∧
      (isLatestB t = isLatestB u → pyStrLe t u = true)) (sortTags tags)) ∧
    imageSorted (imageSorted forestAB) = imageSorted forestAB) :=
  ⟨by decide, sorted_order_spec forestAB (by decide)⟩

/-- C4: the six concrete `pretty_size` examples from the spec hold, and
in general `pretty_size` follows the spec's unit-loop description
(`specPrettySize`): `"{bytes}B"` below 100, units K, M, G, T, P with the
exponent multiplied by 1024 before each, 0.1-unit granularity below 10
units, 0.2-unit granularity below 20 units, a rounded integer below 1024
units, and the `"{round(bytes/e)}P"` fallback. -/
theorem pretty_size_spec :
    prettySize 50 = "50B" ∧ prettySize 500 = "0.5K" ∧ prettySize 2048 = "2.0K"
    ∧ prettySize 15360 = "15.0K" ∧ prettySize 512000 = "500K"
    ∧ prettySize 1048576 = "1.0M"
    ∧ ∀ i : Int, prettySize i = specPrettySize i := by
  refine ⟨by decide, by decide, by decide, by decide, by decide, by decide, ?_⟩
  intro i
  simp only [prettySize]
  rw [prettySizeLoop_cons, prettySizeLoop_cons, prettySizeLoop_cons,
    prettySizeLoop_cons, prettySizeLoop_cons]
  simp only [prettySizeLoop]
  norm_num [specPrettySize]


/-- C5 counterexample: at a delta of exactly 60.499999 seconds — which is
below the claim's `60.5 s` cutoff, so the claim prescribes the
`"+{round(delta)}s" = "+60s"` form — the code's `<` comparison against
its 60.499999-second constant fails and the minutes form `"+1:00"` is
produced instead. -/
theorem pretty_time_threshold_counterexample :
    prettyTime true false 60499999 dt0 = "+1:00" ∧
    (60499999 : Int) < 60500000 ∧
    s!"+{pyRound 60499999 1000000}s" = "+60s" ∧
    ("+1:00" : String) ≠ "+60s" :=
  ⟨by decide, by decide, by decide, by decide⟩


/-- C5 (amended): `pretty_time` returns the absolute timestamp for a root
or in flat mode; for a non-root node in tree mode it returns the absolute
timestamp when the delta is at least 1 hour + 0.499999 s, the
`"+{round(delta)}s"` form when the delta is below 60.499999 s, and the
`"+{minutes}:{seconds:02d}"` form when below 60 min + 0.499999 s; in
particular a 5-second delta yields `"+5s"`, a 90-second delta `"+1:30"`,
and a 2-hour delta the absolute timestamp.  (The spec stated the two
cutoffs as 60.5 s and 1 h + 0.5 s; the code's constants are one
microsecond lower.) -/
theorem pretty_time_spec (d : Int) (c : PyDateTime) :
    (∀ nt, prettyTime false nt d c = fmtCtime c) ∧
    (prettyTime true true d c = fmtCtime c) ∧
    (3600499999 ≤ d → prettyTime true false d c = fmtCtime c) ∧
    (d < 60499999 → prettyTime true false d c = s!"+{pyRound d 1000000}s") ∧
    (60499999 ≤ d → d < 3600499999 →
      prettyTime true false d c =
        s!"+{Int.ediv (pyRound d 1000000) 60}:" ++ pad2I (Int.emod (pyRound d 1000000) 60)) ∧
    prettyTime true false 5000000 c = "+5s" ∧
    prettyTime true false 90000000 c = "+1:30" ∧
    prettyTime true false 7200000000 c = fmtCtime c := by
  refine ⟨fun nt => rfl, rfl, ?_, ?_, ?_, ?_, ?_, ?_⟩
  · intro h
    simp only [prettyTime, timeShowDeltaThreshold, Bool.not_true, Bool.false_or]
    split_ifs <;> first | rfl | omega | exact False.elim (by assumption)
  · intro h
    simp only [prettyTime, timeShowDeltaThreshold, time1Min, Bool.not_true, Bool.false_or]
    split_ifs <;> first | rfl | omega | exact False.elim (by assumption)
  · intro h1 h2
    simp only [prettyTime, minsForm, timeShowDeltaThreshold, time1Min, time1Hour,
      Bool.not_true, Bool.false_or]
    split_ifs <;> first | rfl | omega | exact False.elim (by assumption)
  · rfl
  · rfl
  · rfl

/-- Witness for `pretty_time_spec`, applying the minutes branch at a
90-second delta. -/
theorem pretty_time_spec_witness :
    ((60499999 : Int) ≤ 90000000 ∧ (90000000 : Int) < 3600499999) ∧
    prettyTime true false 90000000 dt0
      = s!"+{Int.ediv (pyRound 90000000 1000000) 60}:"
        ++ pad2I (Int.emod (pyRound 90000000 1000000) 60) :=
  ⟨⟨by decide, by decide⟩,
    (pretty_time_spec 90000000 dt0).2.2.2.2.1 (by decide) (by decide)⟩


/-- C6 counterexample: with two records sharing one id, the index keeps
only the later record, so a dangling parent reference on the shadowed
record is never checked: the collection `[imgDupA, imgDupB]` contains a
record whose `parentId` resolves nowhere, yet the build succeeds. -/
theorem build_dangling_duplicate_counterexample :
    imgDupA ∈ [imgDupA, imgDupB] ∧ imgDupA.parentId = some "zz" ∧
    "zz" ∉ idsOf [imgDupA, imgDupB] ∧
    buildImages [imgDupA, imgDupB] = Except.ok [imgDupB] :=
  ⟨by decide, by decide, by decide, by decide⟩


/-- C6 (amended): for every collection of records WITH UNIQUE IDS in
which some record carries a `parentId` that does not resolve to any
record's id, `Images.__init__` fails with a `KeyError` carrying a key
(the dangling-reference error); it never returns a forest. -/
theorem build_dangling_reference (l : List Image0) (hN : (idsOf l).Nodup)
    (r : Image0) (hr : r ∈ l) (p : String) (hp : r.parentId = some p)
    (hnp : p ∉ idsOf l) :
    ∃ k, buildImages l = Except.error (BuildErr.keyError k) := by
  unfold buildImages
  rw [toDict_eq_self hN]
  have hsome : (l.find? (parentMissing l)).isSome := by
    rw [List.find?_isSome]
    refine ⟨r, hr, ?_⟩
    simp only [parentMissing, hp]
    rw [lookupId_eq_none.mpr hnp]
    rfl
  obtain ⟨img, hfind⟩ := Option.isSome_iff_exists.mp hsome
  rw [hfind]
  exact ⟨_, rfl⟩

/-- Witness for `build_dangling_reference`: a single record whose parent
reference dangles. -/
theorem build_dangling_reference_witness :
    ((idsOf [imgB]).Nodup ∧ imgB ∈ [imgB] ∧ imgB.parentId = some "aaaa1111"
      ∧ "aaaa1111" ∉ idsOf [imgB]) ∧
    ∃ k, buildImages [imgB] = Except.error (BuildErr.keyError k) :=
  ⟨⟨by decide, by decide, by decide, by decide⟩,
    build_dangling_reference [imgB] (by decide) imgB (by decide) "aaaa1111"
      (by decide) (by decide)⟩


/-- C7: `_parse_dt` tries the three formats in source order (a string
matching only the second format parses, a nanosecond-suffixed string
parses via the first format's 4-character chop), but a string matching no
format raises a BARE `Exception` whose message is empty — it does NOT
carry the offending input string.  The claim's required error message is
therefore not produced by the code. -/
theorem parse_dt_generic_failure :
    parseDt "this is not a timestamp" = Except.error "" ∧
    parseDt "2021-03-04T05:06:07Z" = Except.ok ⟨2021, 3, 4, 5, 6, 7, 0⟩ ∧
    parseDt "2021-03-04T05:06:07.123456789Z" = Except.ok ⟨2021, 3, 4, 5, 6, 7, 123456⟩ :=
  ⟨by decide, by decide, by decide⟩


/-- C8: in the single-target view of a node with at least one ancestor,
the ancestors are rendered from the true root (which has no parent) down
to but excluding the node — consecutive rendered entries are linked by
the parent relation and the node itself is not among them — with the
first line connected by `"┌─"`, each subsequent ancestor line by
`"\n├─"`, then the node anchored by `"\n└─• "` followed by its subtree
rendering; a node with no ancestors renders as the root bullet `"• "`
followed by its subtree rendering. -/
theorem sprint_tree_ancestors_spec (f : List Image0) (noTrunc noTree : Bool) (img : Image0)
    (hN : (idsOf f).Nodup) (hR : resolvesB f = true) (hA : acyclicB f = true)
    (hm : img ∈ f) :
    (img.parentId = none →
      ancestorsL f img = [] ∧
      sprintTree f noTrunc noTree img
        = "• " ++ sprintChildren f noTrunc noTree [] f.length img "  " "") ∧
    (∀ p0, img.parentId = some p0 →
      ∃ a rest, ancestorsL f img = a :: rest ∧
        a.parentId = none ∧
        List.Chain' (fun u v => parentOf f v = some u) ((a :: rest) ++ [img]) ∧
        img ∉ a :: rest ∧
        sprintTree f noTrunc noTree img
          = "┌─" ++ reprImg f noTrunc noTree a
            ++ String.join (rest.map (fun p => "\n├─" ++ reprImg f noTrunc noTree p))
            ++ "\n└─• " ++ sprintChildren f noTrunc noTree [] f.length img "    " "") := by
  have hR' := resolvesB_iff.mp hR
  constructor
  · intro hp
    have hpo : parentOf f img = none := by rw [parentOf, hp]
    have hch : chainUp f f.length img = some [] := by
      cases f.length with
      | zero => rw [chainUp_zero_eq, hpo]
      | succ n => rw [chainUp_succ_eq, hpo]
    have hanc : ancestorsL f img = [] := by rw [ancestorsL, hch]; rfl
    refine ⟨hanc, ?_⟩
    unfold sprintTree
    rw [if_neg (by rw [hp]; simp)]
  · intro p0 hp
    obtain ⟨lch, hlch⟩ := acyclic_chain hA hm
    have hpi : p0 ∈ idsOf f := hR' img hm p0 hp
    rcases hq : lookupId f p0 with _ | q
    · exact absurd (lookupId_eq_none.mp hq) (by simpa using hpi)
    have hpo : parentOf f img = some q := by
      rw [parentOf, hp]
      exact hq
    obtain ⟨l', hl'⟩ := chainUp_cons_of_parent hlch hpo
    have hanc : ancestorsL f img = lch.reverse := by rw [ancestorsL, hlch]; rfl
    have hne : lch.reverse ≠ [] := by rw [hl']; simp
    obtain ⟨a, rest, har⟩ := List.exists_cons_of_ne_nil hne
    have hAR : ancestorsL f img = a :: rest := by rw [hanc, har]
    obtain ⟨hch', hlast⟩ := chainUp_chain hlch
    refine ⟨a, rest, hAR, ?_, ?_, ?_, ?_⟩
    · have hga : lch.getLast? = some a := by
        rw [← List.head?_reverse, har]
        rfl
      have hlast2 : (img :: lch).getLast? = some a := by
        rw [hl'] at hga ⊢
        rw [List.getLast?_cons_cons]
        exact hga
      have hpa := hlast a hlast2
      cases hpid : a.parentId with
      | none => rfl
      | some pa =>
        rw [parentOf, hpid] at hpa
        have hmemA : a ∈ f := by
          refine chainUp_mem hlch a ?_
          rw [← List.mem_reverse, har]
          exact List.mem_cons_self _ _
        exact absurd (hR' a hmemA pa hpid) (lookupId_eq_none.mp hpa)
    · have hrc : (a :: rest) ++ [img] = (img :: lch).reverse := by
        rw [List.reverse_cons, har]
      rw [hrc]
      exact List.chain'_reverse.mpr hch'
    · intro hc
      apply chainUp_not_self_mem hlch
      rw [← List.mem_reverse, har]
      exact hc
    · unfold sprintTree
      rw [if_pos (by rw [hp]; rfl), hAR]


/-- Witness for `sprint_tree_ancestors_spec` at the child image of the
two-image forest. -/
theorem sprint_tree_ancestors_spec_witness :
    ((idsOf forestAB).Nodup ∧ resolvesB forestAB = true ∧ acyclicB forestAB = true
      ∧ imgB ∈ forestAB) ∧
    ((imgB.parentId = none →
      ancestorsL forestAB imgB = [] ∧
      sprintTree forestAB false false imgB
        = "• " ++ sprintChildren forestAB false false [] forestAB.length imgB "  " "") ∧
    (∀ p0, imgB.parentId = some p0 →
      ∃ a rest, ancestorsL forestAB imgB = a :: rest ∧
        a.parentId = none ∧
        List.Chain' (fun u v => parentOf forestAB v = some u) ((a :: rest) ++ [imgB]) ∧
        imgB ∉ a :: rest ∧
        sprintTree forestAB false false imgB
          = "┌─" ++ reprImg forestAB false false a
            ++ String.join (rest.map (fun p => "\n├─" ++ reprImg forestAB false false p))
            ++ "\n└─• "
            ++ sprintChildren forestAB false false [] forestAB.length imgB "    " "")) :=
  ⟨⟨by decide, by decide, by decide, by decide⟩,
    sprint_tree_ancestors_spec forestAB false false imgB
      (by decide) (by decide) (by decide) (by decide)⟩


/-- C9: for a non-root node in tree mode the relative-time formatter
never produces the `"+{h}:{mm}:{ss}"` duration form: the cutoff below
which a relative form is shown (`_time_show_delta_threshold`, 1 hour +
0.499999 s) equals the cutoff guarding the hours branch (`_time_1_hour`),
so `pretty_time` collapses to the three other forms. -/
theorem pretty_time_hours_branch_unreachable (d : Int) (c : PyDateTime) :
    timeShowDeltaThreshold = time1Hour ∧
    prettyTime true false d c =
      (if d < timeShowDeltaThreshold then
        (if d < time1Min then secsForm d else minsForm d)
      else fmtCtime c) := by
  refine ⟨rfl, ?_⟩
  simp only [prettyTime, timeShowDeltaThreshold, time1Hour, time1Min,
    Bool.not_true, Bool.false_or]
  split_ifs <;> first | rfl | omega | exact False.elim (by assumption)


/-- C10: `remove_sha256` unconditionally drops exactly the first seven
characters of its input without checking them: every string of length at
most 7 maps to the empty string, a digest lacking the `"sha256:"` prefix
loses its first seven digit characters, and `Image.__init__` applies the
function to both the record's `Id` and its truthy `Parent` reference. -/
theorem remove_sha256_spec :
    (∀ s : String, removeSha256 s = String.mk (s.data.drop 7)) ∧
    (∀ s : String, s.data.length ≤ 7 → removeSha256 s = "") ∧
    removeSha256 "0123456789" = "789" ∧
    (∀ m img, mkImage0 m = Except.ok img →
      img.id = removeSha256 m.idStr ∧
      (m.parentStr = none → img.parentId = none) ∧
      (∀ pr, m.parentStr = some pr → pr ≠ "" → img.parentId = some (removeSha256 pr))) := by
  refine ⟨fun s => rfl, ?_, by decide, ?_⟩
  · intro s h
    have : s.data.drop 7 = [] := List.drop_eq_nil_of_le h
    simp [removeSha256, this]
  · intro m img h
    unfold mkImage0 at h
    split at h
    · exact absurd h (by simp)
    · split at h
      · rw [Except.ok.injEq] at h
        subst h
        refine ⟨rfl, ?_, ?_⟩
        · intro hn; simp [hn]
        · intro pr hpr hne; simp [hpr, hne]
      · exact absurd h (by simp)

/-- Witness for `remove_sha256_spec` at a short string and the concrete
metadata record `mdEx`. -/
theorem remove_sha256_spec_witness :
    (("abc" : String).data.length ≤ 7 ∧ removeSha256 "abc" = "") ∧
    (mkImage0 mdEx = Except.ok imgEx ∧ imgEx.id = removeSha256 mdEx.idStr) :=
  ⟨⟨by decide, remove_sha256_spec.2.1 "abc" (by decide)⟩,
    ⟨by decide, (remove_sha256_spec.2.2.2 mdEx imgEx (by decide)).1⟩⟩
